import Mathlib

/-!
Verification of the theia log-aggregation system (event model and codec,
naive time-partitioned store, live pipeline, framed-transport server)
against its natural-language specification.

The Python sources are shallowly embedded:

* Python `str` values are `List Char`; Python `bytes` are also modelled as
  `List Char` together with an explicit UTF-8 byte count (`strBytes`),
  since every byte string handled by the code is UTF-8 text.  Reading `n`
  bytes from a stream is `readUpTo n`, which consumes characters by their
  UTF-8 byte size and signals a read that would split a multi-byte
  character (where Python's `bytes.decode` would raise).
* Python `float` timestamps are modelled as `ℚ`.  `'%d'` formatting
  truncates toward zero (`pyTrunc`); `'%.7f'` formatting rounds the
  scaled value to an integer (`scaled7`) and renders it with exactly
  seven fractional digits (`formatTs`).
* Exceptions are modelled by `Option`/`Except` results.  The event parser
  distinguishes the clean end-of-stream signal (`PErr.eof`, the code's
  `EOFException`) from every other exception raised while parsing a frame
  (`PErr.malformed`).
-/

set_option maxRecDepth 8000
set_option linter.unnecessarySimpa false

/-! ### Character and string helpers -/

/-- The ASCII whitespace characters stripped by Python's `str.strip()`
(the inputs in scope contain no non-ASCII whitespace). -/
def isSpaceC (c : Char) : Bool :=
  c.toNat = 32 || c.toNat = 9 || c.toNat = 10 || c.toNat = 13 || c.toNat = 11 || c.toNat = 12

/-- ASCII decimal digit test, as used by Python's `int`/`float` literal parsing. -/
def isDig (c : Char) : Bool := 48 ≤ c.toNat && c.toNat ≤ 57

/-- Numeric value of an ASCII digit character. -/
def digToNat (c : Char) : Nat := c.toNat - 48

/-- The ASCII digit character for a value `d < 10`. -/
def digitChar (d : Nat) : Char := Char.ofNat (48 + d)

/-- UTF-8 byte length of a string (`len(s.encode('utf-8'))`). -/
def strBytes (l : List Char) : Nat := (l.map Char.utf8Size).sum

/-- Python `str.strip()` from the left. -/
def stripLeft (l : List Char) : List Char := l.dropWhile isSpaceC

/-- Python `str.strip()` from the right. -/
def stripRight (l : List Char) : List Char := (l.reverse.dropWhile isSpaceC).reverse

/-- Python `str.strip()`: remove whitespace from both ends. -/
def strip (l : List Char) : List Char := stripRight (stripLeft l)

/-- `readline()` on a byte stream: consume up to and including the first
newline (or the whole stream when it holds no newline). -/
def readLine : List Char → (List Char × List Char)
  | [] => ([], [])
  | c :: s =>
    if c = '\n' then ([c], s)
    else
      let p := readLine s
      (c :: p.1, p.2)

/-- `stream.read(n)` for `n ≥ 0` on a UTF-8 byte stream of chars: read as many
whole characters as fit in `n` bytes (short reads at end of stream are allowed,
as in Python).  Returns `none` when `n` bytes would split a multi-byte
character, in which case decoding the bytes read would raise. -/
def readUpTo (n : Nat) : List Char → Option (List Char × List Char)
  | [] => some ([], [])
  | c :: cs =>
    if n = 0 then some ([], c :: cs)
    else if c.utf8Size ≤ n then
      (readUpTo (n - c.utf8Size) cs).map (fun p => (c :: p.1, p.2))
    else none

/-- `stream.read(n)` for an `int` count: a negative count reads the rest of
the stream (Python semantics of `read(-1)`). -/
def readN (n : Int) (s : List Char) : Option (List Char × List Char) :=
  if n < 0 then some (s, []) else readUpTo n.toNat s

/-- Decimal rendering with a fuel bound (any fuel above the value gives
the same digits; the fuel only bounds the recursion depth). -/
def toDecimalAux : Nat → Nat → List Char
  | 0, _ => []
  | fuel + 1, n =>
    if n < 10 then [digitChar n]
    else toDecimalAux fuel (n / 10) ++ [digitChar (n % 10)]

/-- Decimal rendering of a natural number, as produced by Python's `'%d'`. -/
def toDecimal (n : Nat) : List Char := toDecimalAux (n + 1) n

/-- Decimal rendering of an integer (`'%d' % i`). -/
def toDecimalInt (i : Int) : List Char :=
  if i < 0 then '-' :: toDecimal i.natAbs else toDecimal i.toNat

/-- Value of a digit string (no validation; callers check `isDig` first). -/
def digitsVal (l : List Char) : Nat := l.foldl (fun a c => 10 * a + digToNat c) 0

/-- Parse a non-empty all-digit string, else fail. -/
def parseDigits (l : List Char) : Option Nat :=
  if l ≠ [] ∧ l.all isDig then some (digitsVal l) else none

/-- Python `int(s)` on the decimal literals in scope: optional surrounding
whitespace, an optional sign, then decimal digits.  Any other input raises
(`none` here). -/
def pyInt (l : List Char) : Option Int :=
  if (strip l).take 1 = ['-'] then (parseDigits ((strip l).drop 1)).map (fun n => -(n : Int))
  else if (strip l).take 1 = ['+'] then (parseDigits ((strip l).drop 1)).map (fun n => (n : Int))
  else (parseDigits (strip l)).map (fun n => (n : Int))

/-- Python `float(s)` on the decimal literals in scope: optional surrounding
whitespace, an optional sign, digits with at most one decimal point and at
least one digit.  The value `I.F` is the rational `(I * 10^k + F) / 10^k`
(built with `mkRat`, which normalizes to the same rational). -/
def pyFloatCore (s : List Char) : Option ℚ :=
  if '.' ∈ s then
    let ip := s.takeWhile (fun c => c ≠ '.')
    let fp := s.drop (ip.length + 1)
    if '.' ∈ fp then none
    else if (ip ≠ [] ∨ fp ≠ []) ∧ ip.all isDig ∧ fp.all isDig then
      some (mkRat ((digitsVal ip : Int) * 10 ^ fp.length + (digitsVal fp : Int)) (10 ^ fp.length))
    else none
  else if s ≠ [] ∧ s.all isDig then some ((digitsVal s : Int) : ℚ)
  else none

/-- Python `float(s)` (see `pyFloatCore`). -/
def pyFloat (l : List Char) : Option ℚ :=
  if (strip l).take 1 = ['-'] then (pyFloatCore ((strip l).drop 1)).map Neg.neg
  else if (strip l).take 1 = ['+'] then pyFloatCore ((strip l).drop 1)
  else pyFloatCore (strip l)

/-- Python `'%d' % q` / `int(q)` on a float: truncation toward zero. -/
def pyTrunc (q : ℚ) : Int := q.num.tdiv (q.den : Int)

/-- The scaled value `round(q * 10^7)` computed on numerator and denominator
(for a positive denominator, `⌊x + 1/2⌋ = (2a + b) / (2b)` with `/` the
floor division of integers).  This is the integer printed by `'%.7f'`
(ties, which round to even in C, do not occur for the inputs in scope). -/
def scaled7 (q : ℚ) : Int := (2 * q.num * 10 ^ 7 + (q.den : Int)) / (2 * (q.den : Int))

/-- Fixed-width rendering of the fractional part: seven digits, zero-padded. -/
def pad7 (m : Nat) : List Char := List.replicate (7 - (toDecimal m).length) '0' ++ toDecimal m

/-- Python `'%.7f' % q` for `q ≥ 0`: the rounded scaled value rendered as
`<integer part>.<seven fractional digits>`. -/
def formatTsNN (q : ℚ) : List Char :=
  let m := (scaled7 q).toNat
  toDecimal (m / 10 ^ 7) ++ '.' :: pad7 (m % 10 ^ 7)

/-- Python `'%.7f' % q` (with a sign for negatives). -/
def formatTs (q : ℚ) : List Char :=
  if q < 0 then '-' :: formatTsNN (-q) else formatTsNN q

/-- `line.index(':')`-based split of a header line into property name and
value; `none` when the line holds no colon (where `str.index` raises). -/
def splitColon (l : List Char) : Option (List Char × List Char) :=
  if ':' ∈ l then some (l.takeWhile (fun c => c ≠ ':'), l.drop ((l.takeWhile (fun c => c ≠ ':')).length + 1))
  else none

/-- `os.path.basename`: everything after the last `/`. -/
def basename (p : List Char) : List Char := (p.reverse.takeWhile (fun c => c ≠ '/')).reverse

/-- `os.path.dirname`: everything before the last `/` (for the
single-separator paths produced by this code). -/
def dirname (p : List Char) : List Char := ((p.reverse.dropWhile (fun c => c ≠ '/')).drop 1).reverse

/-- `os.path.join(dir, name)` for the paths in scope (no trailing slash on `dir`). -/
def join_paths (d name : List Char) : List Char := d ++ '/' :: name

/-- Lookup in an association list (Python `dict.get`, insertion-ordered). -/
def assocGet {α β : Type} [DecidableEq α] : List (α × β) → α → Option β
  | [], _ => none
  | p :: rest, k => if p.1 = k then some p.2 else assocGet rest k

/-- Update-or-append in an association list (Python `dict.__setitem__`,
which keeps the insertion position of an existing key). -/
def assocSet {α β : Type} [DecidableEq α] (l : List (α × β)) (k : α) (v : β) : List (α × β) :=
  if (assocGet l k).isSome then l.map (fun p => if p.1 = k then (k, v) else p) else l ++ [(k, v)]

/-! ### Regular expressions

The criteria and search patterns handed to `re.match`/`re.search` are
modelled as regular-expression ASTs with standard semantics via Brzozowski
derivatives.  `re_match p s` is Python's `re.match` (the pattern must match
some prefix of `s`, anchored at the start only); `re_search p s` is
Python's `re.search` (the pattern may match a substring starting anywhere). -/

inductive Regex where
  | emp : Regex
  | eps : Regex
  | chr : Char → Regex
  | dot : Regex
  | alt : Regex → Regex → Regex
  | cat : Regex → Regex → Regex
  | star : Regex → Regex
deriving DecidableEq

/-- Does the regex accept the empty string? -/
def Regex.nullable : Regex → Bool
  | .emp => false
  | .eps => true
  | .chr _ => false
  | .dot => false
  | .alt a b => a.nullable || b.nullable
  | .cat a b => a.nullable && b.nullable
  | .star _ => true

/-- Brzozowski derivative of a regex by one character (`.` matches any
character except a newline, as in Python's default mode). -/
def Regex.deriv : Regex → Char → Regex
  | .emp, _ => .emp
  | .eps, _ => .emp
  | .chr c, x => if x = c then .eps else .emp
  | .dot, x => if x = '\n' then .emp else .eps
  | .alt a b, x => .alt (a.deriv x) (b.deriv x)
  | .cat a b, x => if a.nullable then .alt (.cat (a.deriv x) b) (b.deriv x) else .cat (a.deriv x) b
  | .star r, x => .cat (r.deriv x) (.star r)

/-- Whole-string regex acceptance. -/
def Regex.accepts : Regex → List Char → Bool
  | r, [] => r.nullable
  | r, c :: s => (r.deriv c).accepts s

/-- Python `re.match(p, s) is not None`: some prefix of `s` is accepted. -/
def re_match (r : Regex) (s : List Char) : Bool :=
  (List.range (s.length + 1)).any (fun n => r.accepts (s.take n))

/-- Python `re.search(p, s) is not None`: some substring is accepted. -/
def re_search (r : Regex) : List Char → Bool
  | [] => re_match r []
  | c :: rest => re_match r (c :: rest) || re_search r rest

/-! ### Event model (`theia/model.py`) -/

/-- An event record.  `id` and `source` are optional because the parser's
`Header` starts them at `None` and `Event.__init__` stores them without
coercion; `timestamp`, `tags` and `content` are always set (coerced by the
constructor, see `eventInit`). -/
structure Event where
  id : Option (List Char)
  source : Option (List Char)
  timestamp : ℚ
  tags : List (List Char)
  content : List Char
deriving DecidableEq

/-- `Header` as built by the parser: every field starts as `None`. -/
structure Header where
  id : Option (List Char)
  timestamp : Option ℚ
  source : Option (List Char)
  tags : Option (List (List Char))
deriving DecidableEq

/-- `Event.__init__(id, source, timestamp=None, tags=None, content=None)`:
a falsy timestamp (`None` or `0`) is replaced by `time()` (the `now`
parameter), falsy `tags` by `[]`, falsy `content` by `''`. -/
def eventInit (id source : Option (List Char)) (timestamp : Option ℚ)
    (tags : Option (List (List Char))) (content : Option (List Char)) (now : ℚ) : Event :=
  ⟨id, source,
   match timestamp with
   | none => now
   | some q => if q = 0 then now else q,
   tags.getD [], content.getD []⟩

/-- Python's `str(x)` on an optional string (`str(None)` is `"None"`). -/
def pyStr : Option (List Char) → List Char
  | none => "None".data
  | some s => s

/-- `theia.model._match(pattern, value)`: `re.match` against the value,
`False` when the value is `None`. -/
def _match (pattern : Regex) : Option (List Char) → Bool
  | none => false
  | some v => re_match pattern v

/-- The optional criteria accepted by `Event.match` (a missing Python
keyword argument is `none`). -/
structure Criteria where
  id : Option Regex
  source : Option Regex
  start : Option ℚ
  end_ : Option ℚ
  content : Option Regex
  tags : Option (List (List Char))

/-- `Event._match_header_id_and_source`. -/
def Event.matchHeaderIdAndSource (e : Event) (id source : Option Regex) : Bool :=
  let m1 := match id with
    | none => true
    | some p => _match p e.id
  match source with
  | none => m1
  | some p => m1 && _match p e.source

/-- `Event._match_timestamp`: the checks run only when the timestamp is truthy. -/
def Event.matchTimestamp (e : Event) (start end_ : Option ℚ) : Bool :=
  if e.timestamp ≠ 0 then
    let m1 := match start with
      | none => true
      | some st => st ≤ e.timestamp
    match end_ with
    | none => m1
    | some en => m1 && e.timestamp ≤ en
  else true

/-- `Event._match_tags`: every queried tag must be present in the event's tags. -/
def Event.matchTags (e : Event) : Option (List (List Char)) → Bool
  | none => true
  | some tags => tags.all (fun t => decide (t ∈ e.tags))

/-- `Event._match_content`: a falsy content criterion accepts. -/
def Event.matchContent (e : Event) : Option Regex → Bool
  | none => true
  | some p => _match p (some e.content)

/-- `Event.match(**criteria)`: all four criteria groups must accept. -/
def Event.match_ (e : Event) (c : Criteria) : Bool :=
  e.matchHeaderIdAndSource c.id c.source && e.matchTimestamp c.start c.end_
    && e.matchTags c.tags && e.matchContent c.content

/-- `EventSerializer._serialize_header`: the four header lines. -/
def _serialize_header (e : Event) : List Char :=
  "id:".data ++ pyStr e.id ++ '\n'
    :: ("timestamp: ".data ++ formatTs e.timestamp ++ '\n'
    :: ("source:".data ++ pyStr e.source ++ '\n'
    :: ("tags:".data ++ List.intercalate [','] e.tags ++ ['\n'])))

/-- `EventSerializer.serialize`: preamble line with the byte sizes, then
header, content and a final newline. -/
def serialize (e : Event) : List Char :=
  let hdr := _serialize_header e
  let hdr_size := strBytes hdr
  let cnt := e.content
  let cnt_size := strBytes cnt
  "event: ".data ++ toDecimal (hdr_size + cnt_size) ++ ' '
    :: (toDecimal hdr_size ++ ' ' :: (toDecimal cnt_size ++ '\n' :: (hdr ++ cnt ++ ['\n'])))

/-- `EventPreamble`. -/
structure EventPreamble where
  total : Int
  header : Int
  content : Int
deriving DecidableEq

deriving instance DecidableEq for Except

/-- Parse errors: the clean `EOFException` signal versus every other
exception raised while parsing a frame. -/
inductive PErr where
  | eof : PErr
  | malformed : PErr
deriving DecidableEq

/-- The body of `EventParser.parse_header`'s line loop, with a fuel bound
on the number of lines (any fuel above the stream length is equivalent;
the fuel only bounds the recursion depth): each line is stripped, split
at its first colon and dispatched on the property name; blank lines,
lines without a colon, unparsable values and unknown property names
raise. -/
def parseHeaderLinesAux : Nat → List Char → Header → Except PErr Header
  | 0, _, _ => .error .malformed
  | fuel + 1, s, h =>
    if s = [] then .ok h
    else
      let p := readLine s
      let line := strip p.1
      if line = [] then .error .malformed
      else
        match splitColon line with
        | none => .error .malformed
        | some pv =>
          if pv.1 = "id".data then parseHeaderLinesAux fuel p.2 ⟨some pv.2, h.timestamp, h.source, h.tags⟩
          else if pv.1 = "timestamp".data then
            match pyFloat pv.2 with
            | some q => parseHeaderLinesAux fuel p.2 ⟨h.id, some q, h.source, h.tags⟩
            | none => .error .malformed
          else if pv.1 = "source".data then parseHeaderLinesAux fuel p.2 ⟨h.id, h.timestamp, some pv.2, h.tags⟩
          else if pv.1 = "tags".data then parseHeaderLinesAux fuel p.2 ⟨h.id, h.timestamp, h.source, some (pv.2.splitOn ',')⟩
          else .error .malformed

/-- The line loop of `EventParser.parse_header` (see `parseHeaderLinesAux`;
the stream length bounds the number of lines, so this fuel suffices). -/
def parseHeaderLines (s : List Char) (h : Header) : Except PErr Header :=
  parseHeaderLinesAux (s.length + 1) s h

/-- `EventParser.parse_header`: read exactly `hdr_size` bytes (raising on a
short read or an undecodable byte range), then run the line loop on them. -/
def parse_header (hdr_size : Int) (s : List Char) : Except PErr (Header × List Char) :=
  match readN hdr_size s with
  | none => .error .malformed
  | some (hbytes, rest) =>
    if (strBytes hbytes : Int) ≠ hdr_size then .error .malformed
    else
      match parseHeaderLines hbytes ⟨none, none, none, none⟩ with
      | .ok h => .ok (h, rest)
      | .error e => .error e

/-- `EventParser.parse_preamble`: an empty readline raises the clean EOF
signal; the line must start with `event:` and carry three integers after
`pstr[len('event:') + 1:]`. -/
def parse_preamble (s : List Char) : Except PErr (EventPreamble × List Char) :=
  let p := readLine s
  if p.1 = [] then .error .eof
  else
    let pstr := strip p.1
    if pstr.take 6 ≠ "event:".data then .error .malformed
    else
      let values := (pstr.drop 7).splitOn ' '
      if values.length ≠ 3 then .error .malformed
      else
        match pyInt (values.getD 0 []), pyInt (values.getD 1 []), pyInt (values.getD 2 []) with
        | some t, some h, some c => .ok (⟨t, h, c⟩, p.2)
        | _, _, _ => .error .malformed

/-- `EventParser.parse_event` (with `skip_content=False`): parse the
preamble and header, read the declared content bytes, skip the separator
byte, check the size of the *decoded* content against the declared byte
count, and build the `Event` through the coercing constructor (`now` is
the clock value the constructor would read for a falsy timestamp). -/
def parse_event (now : ℚ) (s : List Char) : Except PErr (Event × List Char) :=
  match parse_preamble s with
  | .error e => .error e
  | .ok (preamble, s1) =>
    match parse_header preamble.header s1 with
    | .error e => .error e
    | .ok (header, s2) =>
      match readN preamble.content s2 with
      | none => .error .malformed
      | some (content, s3) =>
        let s4 := s3.drop 1
        if (content.length : Int) ≠ preamble.content then .error .malformed
        else .ok (eventInit header.id header.source header.timestamp header.tags (some content) now, s4)

/-! ### Naive store (`theia/naivestore.py`) -/

/-- A data file: path and inclusive time interval. -/
structure DataFile where
  path : List Char
  start : ℚ
  end_ : ℚ
deriving DecidableEq

instance : Inhabited DataFile := ⟨⟨[], 0, 0⟩⟩

/-- The `while True` loop of `binary_search`, bisecting on the `end`
timestamps between the indices `start` and `e`.  The loop body computes
`mid = (e + start) // 2`, moves `e` down to `mid` when
`datafiles[mid].end >= t` and otherwise moves `start` up to `mid`, then
exits as soon as `e - start <= 1`; here the single update-then-check body
is unfolded into the two update branches, and the fuel (always at least
`e - start + 1` at the call site, which the strictly shrinking interval
never exhausts) only bounds the recursion depth. -/
def bsLoop (files : List DataFile) (t : ℚ) : Nat → Nat → Nat → Nat
  | 0, start, _e => start
  | fuel + 1, start, e =>
    if t ≤ (files.getD ((e + start) / 2) default).end_ then
      if (e + start) / 2 - start ≤ 1 then
        if t ≤ (files.getD start default).end_ then start else (e + start) / 2
      else bsLoop files t fuel start ((e + start) / 2)
    else
      if e - (e + start) / 2 ≤ 1 then
        if t ≤ (files.getD ((e + start) / 2) default).end_ then (e + start) / 2 else e
      else bsLoop files t fuel ((e + start) / 2) e

/-- `theia.naivestore.binary_search`: `None` on an empty list or when the
timestamp falls outside `[first.start, last.end]`, otherwise the loop's
index. -/
def binary_search (files : List DataFile) (t : ℚ) : Option Nat :=
  if files = [] then none
  else if t < (files.getD 0 default).start ∨ (files.getD (files.length - 1) default).end_ < t then none
  else some (bsLoop files t files.length 0 (files.length - 1))

/-- `FileIndex._load_data_file`: adopt a file name iff it matches the
regex `\d+-\d+` (a prefix match), then split it at its first `-` and parse
both parts with `int` (an unparsable tail after the digits only arises for
foreign file names, never for the names this store generates). -/
def _load_data_file (root fname : List Char) : Option DataFile :=
  let ds := fname.takeWhile isDig
  let rest := fname.drop ds.length
  if ds ≠ [] ∧ rest.take 1 = ['-'] ∧ (rest.drop 1).takeWhile isDig ≠ [] then
    let p := fname.takeWhile (fun c => c ≠ '-')
    let q := fname.drop (p.length + 1)
    match pyInt p, pyInt q with
    | some s, some e => some ⟨join_paths root fname, (s : ℚ), (e : ℚ)⟩
    | _, _ => none
  else none

/-- `FileIndex.find_event_file`: index the sorted file list by the
binary-search result. -/
def find_event_file (files : List DataFile) (t : ℚ) : Option DataFile :=
  match binary_search files t with
  | some idx => some (files.getD idx default)
  | none => none

/-- Truthiness of the optional `ts_to` bound (`None` and `0` are falsy). -/
def qTruthy : Option ℚ → Bool
  | none => false
  | some q => q != 0

/-- Value of the optional `ts_to` bound where the code compares against it. -/
def qVal : Option ℚ → ℚ
  | none => 0
  | some q => q

/-- The scan loop of `FileIndex.find` (`while idx < len(self.files)`,
modelled structurally on the suffix of the file list that starts at the
scan index): stop at the first file whose `start` exceeds a truthy
`ts_to`, and collect every file with `start >= ts_from` or
`end >= ts_from`. -/
def findLoop (ts_from : ℚ) (ts_to : Option ℚ) : List DataFile → List DataFile
  | [] => []
  | df :: rest =>
    if qTruthy ts_to ∧ qVal ts_to < df.start then []
    else (if ts_from ≤ df.start ∨ ts_from ≤ df.end_ then [df] else []) ++ findLoop ts_from ts_to rest

/-- `FileIndex.find`: locate the scan start by binary search (with the
fallback first/last choices when the search misses), scan, and return
`None` for an empty result. -/
def FileIndex.find (files : List DataFile) (ts_from : ℚ) (ts_to : Option ℚ) : Option (List DataFile) :=
  let idx0 := binary_search files ts_from
  let idx : Option Nat :=
    match idx0 with
    | some i => some i
    | none =>
      if files ≠ [] then
        if ts_from ≤ (files.getD 0 default).start then some 0
        else if (files.getD (files.length - 1) default).end_ ≤ ts_from then some (files.length - 1)
        else none
      else none
  match idx with
  | some i =>
    let found := findLoop ts_from ts_to (files.drop i)
    if found = [] then none else some found
  | none => none

/-- `FileIndex.add_file`: parse the name, append, re-sort by `start`
(`sorted` is stable; insertion sort with `≤` keeps the same order). -/
def add_file (files : List DataFile) (root fname : List Char) : List DataFile :=
  match _load_data_file root fname with
  | some df => List.insertionSort (fun a b => a.start ≤ b.start) (files ++ [df])
  | none => files

/-- `MemoryFile`: the in-memory buffer backing one data file (the
reentrant lock is irrelevant in this sequential model). -/
structure MemoryFile where
  name : List Char
  path : List Char
  buffer : List Char
deriving DecidableEq

/-- The file system: a mapping from paths to file contents. -/
abbrev Disk : Type := List (List Char × List Char)

/-- `MemoryFile.write`: append to the in-memory buffer. -/
def MemoryFile.write (m : MemoryFile) (data : List Char) : MemoryFile :=
  ⟨m.name, m.path, m.buffer ++ data⟩

/-- `MemoryFile.flush`: write the whole buffer to a temporary file and
rename it over `path/name`; the buffer itself is untouched.  The
transient temporary file is not observable after the rename, so the model
goes straight to the final contents. -/
def MemoryFile.flush (m : MemoryFile) (disk : Disk) : MemoryFile × Disk :=
  (m, assocSet disk (join_paths m.path m.name) m.buffer)

/-- The mutable state of a `NaiveEventStore`: the index, the open-files
map (keyed by data-file path, as in `save`), the backing file system, and
the flush interval. -/
structure StoreState where
  root_dir : List Char
  flush_interval : Int
  index : List DataFile
  open_files : List (List Char × MemoryFile)
  disk : Disk

/-- `NaiveEventStore._get_new_data_file`: a fresh 60-second window whose
name renders both bounds with `'%d'` (truncating float timestamps), while
the returned `DataFile` record keeps the untruncated bounds. -/
def _get_new_data_file (root_dir : List Char) (ts_from : ℚ) : DataFile :=
  ⟨join_paths root_dir (toDecimalInt (pyTrunc ts_from) ++ '-' :: toDecimalInt (pyTrunc (ts_from + 60))),
   ts_from, ts_from + 60⟩

/-- `NaiveEventStore._get_event_file`: the indexed file for the
timestamp, or a newly created window registered with the index. -/
def _get_event_file (st : StoreState) (ts_from : ℚ) : DataFile × StoreState :=
  match find_event_file st.index ts_from with
  | some df => (df, st)
  | none =>
    let df := _get_new_data_file st.root_dir ts_from
    (df, ⟨st.root_dir, st.flush_interval, add_file st.index st.root_dir (basename df.path),
          st.open_files, st.disk⟩)

/-- `NaiveEventStore._open_file`: a fresh empty `MemoryFile` for the data file. -/
def _open_file (df : DataFile) : MemoryFile :=
  ⟨basename df.path, dirname df.path, []⟩

/-- `NaiveEventStore.save`: select or create the partition, append the
serialized event plus `'\n'` to its buffer, and flush synchronously iff
`flush_interval ≤ 0`. -/
def save (st : StoreState) (e : Event) : StoreState :=
  let p := _get_event_file st e.timestamp
  let data_file := p.1
  let st1 := p.2
  let mem_file := match assocGet st1.open_files data_file.path with
    | some m => m
    | none => _open_file data_file
  let mem_file' := (mem_file.write (serialize e)).write ['\n']
  let open' := assocSet st1.open_files data_file.path mem_file'
  if st1.flush_interval ≤ 0 then
    let fl := mem_file'.flush st1.disk
    ⟨st1.root_dir, st1.flush_interval, st1.index, open', fl.2⟩
  else ⟨st1.root_dir, st1.flush_interval, st1.index, open', st1.disk⟩

/-- `NaiveEventStore._matches`: the tag check runs only when `flags` is
not `None` *and* the event has tags; the content check runs only when
both the pattern and the event content are truthy.  A pattern that is
`None` or empty is modelled as `none`. -/
def _matches (e : Event) (flags : Option (List (List Char))) (mtch : Option Regex) : Bool :=
  (match flags with
   | some fl => if e.tags = [] then true else fl.all (fun f => decide (f ∈ e.tags))
   | none => true)
  &&
  (match mtch with
   | some p => if e.content = [] then true else re_search p e.content
   | none => true)

/-- The per-event admission test of `NaiveEventStore._match_forward`: the
timestamp window (open above when `ts_end` is `None`) plus `_matches`. -/
def matchForwardAdmits (ts_start : ℚ) (ts_end : Option ℚ) (flags : Option (List (List Char)))
    (mtch : Option Regex) (e : Event) : Bool :=
  (ts_start ≤ e.timestamp &&
    (match ts_end with
     | none => true
     | some te => e.timestamp ≤ te))
  && _matches e flags mtch

/-! ### Live pipeline (`theia/collector.py`) -/

/-- `LiveFilter`: a connection handle (abstracted to a number) plus criteria. -/
structure LiveFilter where
  ws : Nat
  criteria : Criteria

/-- `Live.pipe`: iterate over a snapshot of the filters and send the
serialized event on every connection whose filter matches.  The result
lists the performed sends in order (serialization cannot fail in this
model, so the error payload branch is not taken). -/
def pipe (filters : List LiveFilter) (e : Event) : List (Nat × List Char) :=
  filters.filterMap (fun f => if e.match_ f.criteria then some (f.ws, serialize e) else none)

/-! ### Framed transport server (`theia/comm.py`) -/

/-- A server response: `none` is Python `None`, `some s` the string `s`. -/
abbrev Resp : Type := Option (List Char)

/-- An action handler `(path, message, websocket, resp)`; raising is
modelled by returning `Except.error` with the exception message. -/
abbrev ActionT : Type := List Char → List Char → Nat → Resp → Except (List Char) Resp

/-- The action chain of `Server._process_req`: each action's return value
becomes the next action's `resp`; an exception aborts the chain. -/
def runActions (path message : List Char) (ws : Nat) : List ActionT → Resp → Except (List Char) Resp
  | [], resp => .ok resp
  | a :: rest, resp =>
    match a path message ws resp with
    | .ok r => runActions path message ws rest r
    | .error e => .error e

/-- `json.dumps({"error": msg})` for messages without JSON escapes. -/
def jsonDumpsError (msg : List Char) : List Char :=
  "\x7b\x22error\x22: \x22".data ++ msg ++ "\x22\x7d".data

/-- `Server._process_req`: find the first registry entry whose path equals
the request path, run its action chain starting from `resp = ''`, and
convert an exception into the JSON error object.  With no matching path
the initial `''` is returned. -/
def _process_req (registry : List (List Char × List ActionT)) (path message : List Char) (ws : Nat) : Resp :=
  match registry.find? (fun p => p.1 = path) with
  | some entry =>
    match runActions path message ws entry.2 (some []) with
    | .ok r => r
    | .error e => some (jsonDumpsError e)
  | none => some []

/-- The reply step of `Server._on_client_connection`: the response is sent
back iff it is not `None` (`str` of a string is itself). -/
def connectionSend (resp : Resp) : Option (List Char) := resp

/-- The matching predicate as the claim states it: anchored-at-start
regex matching for `id`/`source`/`content`, numeric comparison for
`start`/`end`, subset test for `tags`, and missing criteria accepting. -/
def claimMatch (c : Criteria) (e : Event) : Prop :=
  (match c.id with
   | none => True
   | some p => re_match p (e.id.getD []) = true) ∧
  (match c.source with
   | none => True
   | some p => re_match p (e.source.getD []) = true) ∧
  (match c.start with
   | none => True
   | some q => q ≤ e.timestamp) ∧
  (match c.end_ with
   | none => True
   | some q => e.timestamp ≤ q) ∧
  (match c.content with
   | none => True
   | some p => re_match p e.content = true) ∧
  (match c.tags with
   | none => True
   | some ts => ∀ t ∈ ts, t ∈ e.tags)

/-- The selection predicate of the claim: a data file qualifies for the
query `[a, b]` (with `b = 0` an open upper bound) iff `a ≤ end` and
(`b = 0` or `start ≤ b`); for `a ≤ b` and `start ≤ end` this says
exactly that the two ranges intersect. -/
def overlapsQuery (a b : ℚ) (df : DataFile) : Bool :=
  decide (a ≤ df.end_) && (decide (b = 0) || decide (df.start ≤ b))

/-- `readline` never returns a remainder longer than its input. -/
theorem readLine_snd_length_le : ∀ (s : List Char), (readLine s).2.length ≤ s.length
  | [] => by simp [readLine]
  | c :: s => by
    simp only [readLine]
    split
    · simp
    · simpa using Nat.le_succ_of_le (readLine_snd_length_le s)

/-- On a non-empty stream, `readline` consumes at least one character. -/
theorem readLine_snd_length_lt (c : Char) (cs : List Char) :
    (readLine (c :: cs)).2.length < (c :: cs).length := by
  simp only [readLine]
  split
  · simp
  · exact Nat.lt_succ_of_le (readLine_snd_length_le cs)

/-! ### Association-list lemmas -/

theorem assocGet_eq_none_iff {α β : Type} [DecidableEq α] (l : List (α × β)) (k : α) :
    assocGet l k = none ↔ ∀ p ∈ l, p.1 ≠ k := by
  induction l with
  | nil => simp [assocGet]
  | cons p rest ih =>
    by_cases h : p.1 = k <;> simp [assocGet, h, ih]

theorem assocGet_map_self {α β : Type} [DecidableEq α] (l : List (α × β)) (k : α) (v : β) :
    assocGet (l.map (fun p => if p.1 = k then (k, v) else p)) k = (assocGet l k).map (fun _ => v) := by
  induction l with
  | nil => simp [assocGet]
  | cons p rest ih =>
    by_cases h : p.1 = k
    · simp [assocGet, h]
    · simp only [List.map_cons, if_neg h]
      rw [assocGet, assocGet]
      simp [h, ih]

theorem assocGet_append {α β : Type} [DecidableEq α] (l1 l2 : List (α × β)) (k : α) :
    assocGet (l1 ++ l2) k =
      (match assocGet l1 k with
       | some v => some v
       | none => assocGet l2 k) := by
  induction l1 with
  | nil => simp [assocGet]
  | cons p rest ih =>
    by_cases h : p.1 = k
    · simp [assocGet, h]
    · simp only [List.cons_append]
      rw [assocGet, assocGet]
      simp [h, ih]

theorem assocGet_assocSet {α β : Type} [DecidableEq α] (l : List (α × β)) (k : α) (v : β) :
    assocGet (assocSet l k v) k = some v := by
  unfold assocSet
  split
  · rename_i hsome
    rw [assocGet_map_self]
    obtain ⟨w, hw⟩ := Option.isSome_iff_exists.mp hsome
    rw [hw]
    rfl
  · rename_i hnone
    rw [assocGet_append, Option.not_isSome_iff_eq_none.mp hnone]
    simp [assocGet]

theorem assocSet_assocSet_same {α β : Type} [DecidableEq α] (l : List (α × β)) (k : α) (v : β) :
    assocSet (assocSet l k v) k v = assocSet l k v := by
  have hget : assocGet (assocSet l k v) k = some v := assocGet_assocSet l k v
  have houter : assocSet (assocSet l k v) k v
      = (assocSet l k v).map (fun p => if p.1 = k then (k, v) else p) := by
    generalize hL : assocSet l k v = L at hget ⊢
    unfold assocSet
    rw [hget]
    rfl
  rw [houter]
  by_cases hs : (assocGet l k).isSome
  · have h1 : assocSet l k v = l.map (fun p => if p.1 = k then (k, v) else p) := by
      unfold assocSet
      rw [if_pos hs]
    rw [h1, List.map_map]
    apply List.map_congr_left
    intro p _
    by_cases h : p.1 = k <;> simp [h, Function.comp]
  · have h1 : assocSet l k v = l ++ [(k, v)] := by
      unfold assocSet
      rw [if_neg hs]
    have hne : ∀ p ∈ l, p.1 ≠ k := by
      rw [← assocGet_eq_none_iff]
      exact Option.not_isSome_iff_eq_none.mp hs
    have hmapl : l.map (fun p => if p.1 = k then (k, v) else p) = l := by
      conv_rhs => rw [← List.map_id l]
      apply List.map_congr_left
      intro p hp
      simp [hne p hp]
    rw [h1, List.map_append, hmapl]
    simp

/-- Claim C7: flush idempotence.  For every `MemoryFile` and file system,
two consecutive `flush()` calls with no intervening write leave the file
system exactly as after the first flush (identical bytes for every path),
the flushed file holds the full buffer, and neither flush modifies (in
particular neither truncates) the in-memory buffer. -/
theorem C7_flush_idempotent (m : MemoryFile) (d : Disk) :
    (m.flush d).1 = m ∧
    ((m.flush d).1.flush (m.flush d).2).2 = (m.flush d).2 ∧
    ((m.flush d).1.flush (m.flush d).2).1.buffer = m.buffer ∧
    assocGet (m.flush d).2 (join_paths m.path m.name) = some m.buffer := by
  refine ⟨rfl, ?_, rfl, ?_⟩
  · show (assocSet (assocSet d (join_paths m.path m.name) m.buffer) (join_paths m.path m.name) m.buffer)
      = assocSet d (join_paths m.path m.name) m.buffer
    exact assocSet_assocSet_same d (join_paths m.path m.name) m.buffer
  · exact assocGet_assocSet d (join_paths m.path m.name) m.buffer

/-- The coercing constructor never yields a zero timestamp when the clock
is nonzero. -/
theorem eventInit_timestamp_ne_zero (id source : Option (List Char)) (timestamp : Option ℚ)
    (tags : Option (List (List Char))) (content : Option (List Char)) (now : ℚ)
    (hnz : now ≠ 0) :
    (eventInit id source timestamp tags content now).timestamp ≠ 0 := by
  match timestamp with
  | none => exact hnz
  | some q =>
    by_cases hq : q = 0
    · simpa [eventInit, hq] using hnz
    · simpa [eventInit, hq] using hq

/-- Claim C10: constructor coercion.  `Event.__init__` replaces a falsy
timestamp argument (`None` or `0`) by the clock value `now`, `tags=None`
by the empty list and `content=None` by the empty string; consequently no
event built by the constructor has timestamp `0` (as long as the wall
clock is positive), and events produced by the parser (which builds them
through the same constructor) never have timestamp `0` either. -/
theorem C10_constructor_coercion (id source : Option (List Char)) (timestamp : Option ℚ)
    (tags : Option (List (List Char))) (content : Option (List Char)) (now : ℚ)
    (hnow : 0 < now) :
    (eventInit id source timestamp tags content now).timestamp ≠ 0 ∧
    ((timestamp = none ∨ timestamp = some 0) →
      (eventInit id source timestamp tags content now).timestamp = now) ∧
    (eventInit id source timestamp tags content now).tags = tags.getD [] ∧
    (eventInit id source timestamp tags content now).content = content.getD [] ∧
    (∀ s ev rest, parse_event now s = .ok (ev, rest) → ev.timestamp ≠ 0) := by
  have hnz : now ≠ 0 := ne_of_gt hnow
  refine ⟨eventInit_timestamp_ne_zero _ _ _ _ _ _ hnz, ?_, rfl, rfl, ?_⟩
  · rintro (h | h) <;> simp [eventInit, h]
  · intro s ev rest hok
    unfold parse_event at hok
    split at hok
    · simp at hok
    · split at hok
      · simp at hok
      · split at hok
        · simp at hok
        · split at hok
          · simp at hok
          · simp only [Except.ok.injEq, Prod.mk.injEq] at hok
            obtain ⟨hev, -⟩ := hok
            rw [← hev]
            exact eventInit_timestamp_ne_zero _ _ _ _ _ _ hnz
/-- Witness for C10 at concrete arguments. -/
theorem C10_witness :
    (0 : ℚ) < 1 ∧
    ((eventInit (some "a".data) (some "s".data) (some 0) none none 1).timestamp ≠ 0 ∧
     ((some (0 : ℚ) = none ∨ some (0 : ℚ) = some 0) →
       (eventInit (some "a".data) (some "s".data) (some 0) none none 1).timestamp = 1) ∧
     (eventInit (some "a".data) (some "s".data) (some 0) none none 1).tags = (none : Option (List (List Char))).getD [] ∧
     (eventInit (some "a".data) (some "s".data) (some 0) none none 1).content = (none : Option (List Char)).getD [] ∧
     (∀ s ev rest, parse_event 1 s = .ok (ev, rest) → ev.timestamp ≠ 0)) :=
  ⟨by decide, C10_constructor_coercion (some "a".data) (some "s".data) (some 0) none none 1 (by decide)⟩

/-! ### Server dispatch (C9) -/

/-- Splitting an action chain: the chain runs its first part, then feeds
the result into the rest; an exception in the first part aborts the whole
chain. -/
theorem runActions_append (path message : List Char) (ws : Nat) (as bs : List ActionT) (r : Resp) :
    runActions path message ws (as ++ bs) r =
      (match runActions path message ws as r with
       | .ok r' => runActions path message ws bs r'
       | .error e => .error e) := by
  induction as generalizing r with
  | nil => simp [runActions]
  | cons a rest ih =>
    simp only [List.cons_append, runActions]
    cases a path message ws r with
    | ok r' => exact ih r'
    | error e => rfl

/-- Claim C9 (amended): server dispatch.  For a connection path with a
registered action list, the server runs the actions in registration
order, chaining each return value into the next action's `resp` input
(`runActions`); if an action raises, the chain aborts and the JSON object
`{"error": "<message>"}` is the reply; otherwise the final `resp` is the
reply.  The reply is sent back if and only if it is not `None` — in
particular an empty-string reply (and the initial `''` used when no
path matches) **is** sent as an empty frame, unlike the claim's
"non-empty" condition. -/
theorem C9_server_dispatch (registry : List (List Char × List ActionT))
    (path message : List Char) (ws : Nat) (entry : List Char × List ActionT)
    (hfind : registry.find? (fun p => p.1 = path) = some entry) :
    (∀ r, runActions path message ws entry.2 (some []) = .ok r →
      _process_req registry path message ws = r) ∧
    (∀ emsg, runActions path message ws entry.2 (some []) = .error emsg →
      _process_req registry path message ws = some (jsonDumpsError emsg)) ∧
    (∀ pre f post r emsg, entry.2 = pre ++ f :: post →
      runActions path message ws pre (some []) = .ok r →
      f path message ws r = .error emsg →
      _process_req registry path message ws = some (jsonDumpsError emsg)) ∧
    (∀ resp : Resp, (connectionSend resp).isSome ↔ resp ≠ none) := by
  refine ⟨?_, ?_, ?_, ?_⟩
  · intro r hrun
    simp only [_process_req, hfind, hrun]
  · intro emsg hrun
    simp only [_process_req, hfind, hrun]
  · intro pre f post r emsg hsplit hpre hf
    simp only [_process_req, hfind, hsplit, runActions_append, hpre]
    simp only [runActions, hf]
  · intro resp
    cases resp <;> simp [connectionSend]

/-- Witness for C9 at a concrete registry. -/
theorem C9_witness :
    ([(['/', 'a'], [(fun _ _ _ _ => .ok (some ['o', 'k']) : ActionT)])].find?
        (fun p => p.1 = ['/', 'a']) = some (['/', 'a'], [fun _ _ _ _ => .ok (some ['o', 'k'])])) ∧
    (∀ r, runActions ['/', 'a'] ['m'] 0 [(fun _ _ _ _ => .ok (some ['o', 'k']) : ActionT)] (some []) = .ok r →
      _process_req [(['/', 'a'], [fun _ _ _ _ => .ok (some ['o', 'k'])])] ['/', 'a'] ['m'] 0 = r) :=
  ⟨by simp [List.find?],
   (C9_server_dispatch [(['/', 'a'], [fun _ _ _ _ => .ok (some ['o', 'k'])])] ['/', 'a'] ['m'] 0
      (['/', 'a'], [fun _ _ _ _ => .ok (some ['o', 'k'])]) (by simp [List.find?])).1⟩

/-- Counterexample to C9 as stated: the claim says the final `resp` is
sent back iff it is non-empty, but `_on_client_connection` sends whenever
`resp is not None` — with a single registered action returning the empty
string, the empty string is sent as a reply frame. -/
theorem C9_counterexample :
    _process_req [(['/', 'a'], [(fun _ _ _ _ => .ok (some []) : ActionT)])] ['/', 'a'] ['m'] 0 = some ([] : List Char) ∧
    connectionSend (some ([] : List Char)) = some [] := by
  constructor
  · simp [_process_req, List.find?, runActions]
  · rfl

/-! ### Historical search admission (C4) -/

/-- Claim C4 (amended): search admission.  An event parsed from a
candidate data file is yielded by `NaiveEventStore._match_forward` iff its
timestamp lies in `[ts_start, ts_end]` (upper bound open when `ts_end` is
missing), the tag filter passes, and the content filter passes — where,
unlike the claim as stated, an event with **no tags** bypasses the tag
filter entirely and an event with **empty content** bypasses the content
filter entirely (`_matches` guards both checks behind truthiness of the
event's own field). -/
theorem C4_search_admission (ts_start : ℚ) (ts_end : Option ℚ)
    (flags : Option (List (List Char))) (mtch : Option Regex) (e : Event) :
    matchForwardAdmits ts_start ts_end flags mtch e = true ↔
      (ts_start ≤ e.timestamp ∧
        (match ts_end with
         | none => True
         | some te => e.timestamp ≤ te) ∧
        (match flags with
         | none => True
         | some fl => e.tags = [] ∨ ∀ f ∈ fl, f ∈ e.tags) ∧
        (match mtch with
         | none => True
         | some p => e.content = [] ∨ re_search p e.content = true)) := by
  unfold matchForwardAdmits _matches
  cases ts_end with
  | none =>
    cases flags with
    | none =>
      cases mtch with
      | none => simp
      | some p =>
        by_cases hc : e.content = [] <;> simp [hc]
    | some fl =>
      by_cases ht : e.tags = [] <;>
        cases mtch with
        | none => simp [ht]
        | some p =>
          by_cases hc : e.content = [] <;> simp [ht, hc, and_assoc]
  | some te =>
    cases flags with
    | none =>
      cases mtch with
      | none => simp
      | some p =>
        by_cases hc : e.content = [] <;> simp [hc, and_assoc]
    | some fl =>
      by_cases ht : e.tags = [] <;>
        cases mtch with
        | none => simp [ht, and_assoc]
        | some p =>
          by_cases hc : e.content = [] <;> simp [ht, hc, and_assoc]

/-- Witness for C4 (the theorem has no hypotheses, but a closed instance
is still recorded): an event inside the window with matching tag filter. -/
theorem C4_search_admission_witness :
    matchForwardAdmits 0 (some 9) (some [['t']]) none ⟨some ['i'], some ['s'], 5, [['t']], ['c']⟩ = true ↔
      ((0 : ℚ) ≤ 5 ∧
        (match (some (9 : ℚ) : Option ℚ) with
         | none => True
         | some te => (5 : ℚ) ≤ te) ∧
        (match (some [['t']] : Option (List (List Char))) with
         | none => True
         | some fl => ([['t']] : List (List Char)) = [] ∨ ∀ f ∈ fl, f ∈ ([['t']] : List (List Char))) ∧
        (match (none : Option Regex) with
         | none => True
         | some p => (['c'] : List Char) = [] ∨ re_search p ['c'] = true)) :=
  C4_search_admission 0 (some 9) (some [['t']]) none ⟨some ['i'], some ['s'], 5, [['t']], ['c']⟩

/-- Counterexample to C4 as stated: with a supplied content pattern `X`
and an in-window event whose content is empty, the code admits the event
even though the pattern does not match the empty content as a substring
regex search. -/
theorem C4_counterexample :
    matchForwardAdmits 0 none none (some (.chr 'X')) ⟨some ['i'], some ['s'], 5, [['t']], []⟩ = true ∧
    re_search (.chr 'X') ([] : List Char) = false := by
  constructor
  · decide
  · decide

/-! ### Live matching (C6) -/

/-- `Event.match` coincides with the claim's matching predicate on events
with a nonzero timestamp and non-`None` id and source. -/
theorem match_iff_claimMatch (e : Event) (c : Criteria)
    (hts : e.timestamp ≠ 0) (hid : e.id.isSome) (hsrc : e.source.isSome) :
    (e.match_ c = true ↔ claimMatch c e) := by
  obtain ⟨iv, hiv⟩ := Option.isSome_iff_exists.mp hid
  obtain ⟨sv, hsv⟩ := Option.isSome_iff_exists.mp hsrc
  have h1 : e.matchHeaderIdAndSource c.id c.source = true ↔
      ((match c.id with
        | none => True
        | some p => re_match p (e.id.getD []) = true) ∧
       (match c.source with
        | none => True
        | some p => re_match p (e.source.getD []) = true)) := by
    unfold Event.matchHeaderIdAndSource
    cases c.id <;> cases c.source <;> simp [_match, hiv, hsv]
  have h2 : e.matchTimestamp c.start c.end_ = true ↔
      ((match c.start with
        | none => True
        | some q => q ≤ e.timestamp) ∧
       (match c.end_ with
        | none => True
        | some q => e.timestamp ≤ q)) := by
    unfold Event.matchTimestamp
    rw [if_pos hts]
    cases c.start <;> cases c.end_ <;> simp
  have h3 : e.matchTags c.tags = true ↔
      (match c.tags with
       | none => True
       | some ts => ∀ t ∈ ts, t ∈ e.tags) := by
    unfold Event.matchTags
    cases c.tags <;> simp
  have h4 : e.matchContent c.content = true ↔
      (match c.content with
       | none => True
       | some p => re_match p e.content = true) := by
    unfold Event.matchContent
    cases c.content <;> simp [_match]
  unfold Event.match_ claimMatch
  rw [Bool.and_eq_true, Bool.and_eq_true, Bool.and_eq_true, h1, h2, h3, h4]
  tauto

/-- Claim C6: live-pipe exactness.  For any snapshot of registered
filters and any event with a nonzero timestamp and non-`None` id and
source (as every constructor-built event has), `pipe` sends the
serialized event on exactly the connections of the filters whose
criteria the event matches, where matching is anchored-at-start regex
for id/source/content, numeric comparison for start/end, subset test for
tags, and missing criteria accept. -/
theorem C6_live_pipe (filters : List LiveFilter) (e : Event) (ws : Nat) (payload : List Char)
    (hts : e.timestamp ≠ 0) (hid : e.id.isSome) (hsrc : e.source.isSome) :
    ((ws, payload) ∈ pipe filters e ↔
      payload = serialize e ∧ ∃ f ∈ filters, f.ws = ws ∧ claimMatch f.criteria e) := by
  unfold pipe
  rw [List.mem_filterMap]
  constructor
  · rintro ⟨f, hf, hg⟩
    by_cases hm : e.match_ f.criteria = true
    · rw [if_pos hm] at hg
      obtain ⟨hws, hpay⟩ := Prod.mk.injEq .. ▸ Option.some.injEq .. ▸ hg
      exact ⟨hpay.symm, f, hf, hws, (match_iff_claimMatch e f.criteria hts hid hsrc).mp hm⟩
    · rw [if_neg hm] at hg
      exact absurd hg (by simp)
  · rintro ⟨hpay, f, hf, hws, hcm⟩
    refine ⟨f, hf, ?_⟩
    rw [if_pos ((match_iff_claimMatch e f.criteria hts hid hsrc).mpr hcm)]
    rw [hws, hpay]

/-- Witness for C6: a one-filter snapshot (tag criterion) and a matching event. -/
theorem C6_witness :
    ((⟨some ['i'], some ['s'], 5, [['1'], ['3']], ['c']⟩ : Event).timestamp ≠ 0 ∧
     (⟨some ['i'], some ['s'], 5, [['1'], ['3']], ['c']⟩ : Event).id.isSome = true ∧
     (⟨some ['i'], some ['s'], 5, [['1'], ['3']], ['c']⟩ : Event).source.isSome = true) ∧
    ((7, serialize ⟨some ['i'], some ['s'], 5, [['1'], ['3']], ['c']⟩) ∈
        pipe [⟨7, ⟨none, none, none, none, none, some [['3']]⟩⟩]
          ⟨some ['i'], some ['s'], 5, [['1'], ['3']], ['c']⟩ ↔
      serialize ⟨some ['i'], some ['s'], 5, [['1'], ['3']], ['c']⟩ =
          serialize ⟨some ['i'], some ['s'], 5, [['1'], ['3']], ['c']⟩ ∧
        ∃ f ∈ [(⟨7, ⟨none, none, none, none, none, some [['3']]⟩⟩ : LiveFilter)],
          f.ws = 7 ∧ claimMatch f.criteria ⟨some ['i'], some ['s'], 5, [['1'], ['3']], ['c']⟩) :=
  ⟨⟨by decide, by decide, by decide⟩,
   C6_live_pipe [⟨7, ⟨none, none, none, none, none, some [['3']]⟩⟩]
     ⟨some ['i'], some ['s'], 5, [['1'], ['3']], ['c']⟩ 7
     (serialize ⟨some ['i'], some ['s'], 5, [['1'], ['3']], ['c']⟩)
     (by decide) (by decide) (by decide)⟩

/-! ### Binary search and point lookup (C2) -/

/-- `getD` at an in-range index is the list element. -/
theorem getD_eq_getElem_of_lt {α : Type} [Inhabited α] (l : List α) (j : Nat) (h : j < l.length) :
    l.getD j default = l[j] := by
  rw [List.getD_eq_getElem?_getD, List.getElem?_eq_getElem h]
  rfl

/-- Invariant of the `binary_search` loop: started on a bracket
`[s, e]` with `t ≤ end(e)` and (`s = 0` or `end(s) < t`), over files whose
`end` timestamps are non-decreasing, the loop returns the left-most index
whose `end` is at least `t`. -/
theorem bsLoop_spec (files : List DataFile) (t : ℚ)
    (hmono : ∀ j < files.length, ∀ i < j, (files.getD i default).end_ ≤ (files.getD j default).end_) :
    ∀ (fuel s e : Nat), e - s < fuel → s ≤ e → e < files.length →
      t ≤ (files.getD e default).end_ →
      (s = 0 ∨ (files.getD s default).end_ < t) →
      bsLoop files t fuel s e ≤ e ∧
      t ≤ (files.getD (bsLoop files t fuel s e) default).end_ ∧
      ∀ j < bsLoop files t fuel s e, (files.getD j default).end_ < t := by
  intro fuel
  induction fuel with
  | zero => omega
  | succ fuel ih =>
    intro s e hfuel hse hlen hte hinv
    simp only [bsLoop]
    by_cases hmid : t ≤ (files.getD ((e + s) / 2) default).end_
    · rw [if_pos hmid]
      by_cases hexit : (e + s) / 2 - s ≤ 1
      · rw [if_pos hexit]
        by_cases hs : t ≤ (files.getD s default).end_
        · rw [if_pos hs]
          have hs0 : s = 0 := by
            rcases hinv with h0 | hlt
            · exact h0
            · exact absurd hs (not_le.mpr hlt)
          refine ⟨hse, hs, ?_⟩
          intro j hj
          omega
        · rw [if_neg hs]
          have hsl : (files.getD s default).end_ < t := not_le.mp hs
          refine ⟨by omega, hmid, ?_⟩
          intro j hj
          have hjs : j ≤ s := by omega
          rcases Nat.lt_or_ge j s with hlt | hge
          · exact lt_of_le_of_lt (hmono s (by omega) j hlt) hsl
          · have : j = s := by omega
            rw [this]
            exact hsl
      · rw [if_neg hexit]
        have hrec := ih s ((e + s) / 2) (by omega) (by omega) (by omega) hmid hinv
        exact ⟨hrec.1.trans (by omega), hrec.2.1, hrec.2.2⟩
    · rw [if_neg hmid]
      have hmidlt : (files.getD ((e + s) / 2) default).end_ < t := not_le.mp hmid
      by_cases hexit : e - (e + s) / 2 ≤ 1
      · rw [if_pos hexit, if_neg hmid]
        refine ⟨le_refl e, hte, ?_⟩
        intro j hj
        have hjm : j ≤ (e + s) / 2 := by omega
        rcases Nat.lt_or_ge j ((e + s) / 2) with hlt | hge
        · exact lt_of_le_of_lt (hmono ((e + s) / 2) (by omega) j hlt) hmidlt
        · have : j = (e + s) / 2 := by omega
          rw [this]
          exact hmidlt
      · rw [if_neg hexit]
        exact ih ((e + s) / 2) e (by omega) (by omega) hlen hte (Or.inr hmidlt)

/-- `binary_search` returns `none` exactly on an empty list or a
timestamp outside the total span. -/
theorem binary_search_none_iff (files : List DataFile) (t : ℚ) :
    binary_search files t = none ↔
      (files = [] ∨ t < (files.getD 0 default).start ∨ (files.getD (files.length - 1) default).end_ < t) := by
  unfold binary_search
  by_cases hempty : files = []
  · simp [hempty]
  · rw [if_neg hempty]
    by_cases hguard : t < (files.getD 0 default).start ∨ (files.getD (files.length - 1) default).end_ < t
    · rw [if_pos hguard]
      simp only [hempty, false_or]
      exact ⟨fun _ => hguard, fun _ => trivial⟩
    · rw [if_neg hguard]
      simp only [hempty, false_or]
      constructor
      · intro h
        exact absurd h (by simp)
      · intro h
        exact absurd h hguard

/-- With non-decreasing `end` timestamps, a successful `binary_search`
returns the left-most in-range index whose `end` is at least `t`. -/
theorem binary_search_some_spec (files : List DataFile) (t : ℚ)
    (hmono : ∀ j < files.length, ∀ i < j, (files.getD i default).end_ ≤ (files.getD j default).end_) :
    ∀ i, binary_search files t = some i →
      i < files.length ∧ t ≤ (files.getD i default).end_ ∧
      ∀ j < i, (files.getD j default).end_ < t := by
  intro i hsome
  unfold binary_search at hsome
  by_cases hempty : files = []
  · rw [if_pos hempty] at hsome
    exact absurd hsome (by simp)
  · rw [if_neg hempty] at hsome
    by_cases hguard : t < (files.getD 0 default).start ∨ (files.getD (files.length - 1) default).end_ < t
    · rw [if_pos hguard] at hsome
      exact absurd hsome (by simp)
    · rw [if_neg hguard] at hsome
      have hlen : 0 < files.length := List.length_pos.mpr hempty
      push_neg at hguard
      have hspec := bsLoop_spec files t hmono files.length 0 (files.length - 1)
        (by omega) (by omega) (by omega) hguard.2 (Or.inl rfl)
      have hi : i = bsLoop files t files.length 0 (files.length - 1) := by
        simpa using hsome.symm
      rw [hi]
      exact ⟨by omega, hspec.2.1, hspec.2.2⟩

/-- Claim C2 (amended): binary-search/point-lookup contract.  For a list
of data files sorted ascending by `start` **whose `end` timestamps are
also non-decreasing** (as holds for non-overlapping partitions),
`binary_search` returns `none` exactly when the list is empty,
`t < first.start` or `t > last.end`; any returned index is in range and
is the left-most entry with `end ≥ t`.  Consequently `find_event_file`
returns `none` exactly outside the total span, and any file it returns
has `end ≥ t` and either contains `t` or — when `t` lies in a gap — no
file in the index contains `t` (the result then being the next later
file, the first with `end ≥ t`). -/
theorem C2_binary_search_contract (files : List DataFile) (t : ℚ)
    (hsort : ∀ j < files.length, ∀ i < j, (files.getD i default).start ≤ (files.getD j default).start)
    (hmono : ∀ j < files.length, ∀ i < j, (files.getD i default).end_ ≤ (files.getD j default).end_) :
    (binary_search files t = none ↔
      (files = [] ∨ t < (files.getD 0 default).start ∨ (files.getD (files.length - 1) default).end_ < t)) ∧
    (∀ i, binary_search files t = some i →
      i < files.length ∧ t ≤ (files.getD i default).end_ ∧
      ∀ j < i, (files.getD j default).end_ < t) ∧
    (find_event_file files t = none ↔
      (files = [] ∨ t < (files.getD 0 default).start ∨ (files.getD (files.length - 1) default).end_ < t)) ∧
    (∀ df, find_event_file files t = some df →
      t ≤ df.end_ ∧
      (df.start ≤ t ∨ ∀ df' ∈ files, ¬(df'.start ≤ t ∧ t ≤ df'.end_))) := by
  have hmain := binary_search_some_spec files t hmono
  have hnone := binary_search_none_iff files t
  refine ⟨hnone, hmain, ?_, ?_⟩
  · unfold find_event_file
    cases hbs : binary_search files t with
    | some i =>
      simp only [hbs]
      constructor
      · intro h
        exact absurd h (by simp)
      · intro h
        have hcontr := hnone.mpr h
        rw [hbs] at hcontr
        exact absurd hcontr (by simp)
    | none =>
      simp only [hbs]
      exact ⟨fun _ => hnone.mp hbs, fun _ => trivial⟩
  · intro df hdf
    unfold find_event_file at hdf
    cases hbs : binary_search files t with
    | none => rw [hbs] at hdf; exact absurd hdf (by simp)
    | some i =>
      rw [hbs] at hdf
      have hdf' : df = files.getD i default := by simpa using hdf.symm
      obtain ⟨hilen, hiend, hileft⟩ := hmain i hbs
      subst hdf'
      refine ⟨hiend, ?_⟩
      by_cases hst : (files.getD i default).start ≤ t
      · exact Or.inl hst
      · refine Or.inr ?_
        intro df' hmem hcontain
        obtain ⟨j, hj, hj'⟩ := List.mem_iff_getElem.mp hmem
        rw [← getD_eq_getElem_of_lt files j hj] at hj'
        rcases Nat.lt_or_ge j i with hlt | hge
        · have hjlt := hileft j hlt
          rw [hj'] at hjlt
          exact absurd hcontain.2 (not_le.mpr hjlt)
        · rcases Nat.eq_or_lt_of_le hge with heq | hgt
          · rw [← heq] at hj'
            rw [← hj'] at hcontain
            exact hst hcontain.1
          · have hle := hsort j hj i hgt
            rw [hj'] at hle
            exact hst (hle.trans hcontain.1)

/-- Counterexample to C2 as stated: sorting by `start` alone is not
enough.  The list `[(0,10), (1,2), (3,20)]` is sorted ascending by
`start`, yet for `t = 5` the search returns index `2` although the
left-most entry with `end ≥ 5` is index `0` — with overlapping
partitions the `end` timestamps are not monotone and the bisection loses
the left-most qualifying entry. -/
theorem C2_counterexample :
    (∀ j < 3, ∀ i < j,
      (([⟨[], 0, 10⟩, ⟨[], 1, 2⟩, ⟨[], 3, 20⟩] : List DataFile).getD i default).start ≤
        (([⟨[], 0, 10⟩, ⟨[], 1, 2⟩, ⟨[], 3, 20⟩] : List DataFile).getD j default).start) ∧
    binary_search [⟨[], 0, 10⟩, ⟨[], 1, 2⟩, ⟨[], 3, 20⟩] 5 = some 2 ∧
    (5 : ℚ) ≤ (([⟨[], 0, 10⟩, ⟨[], 1, 2⟩, ⟨([] : List Char), 3, 20⟩] : List DataFile).getD 0 default).end_ := by
  refine ⟨?_, ?_, ?_⟩ <;> decide

/-- Witness for C2 on a well-formed (non-overlapping) index. -/
theorem C2_witness :
    ((∀ j < 2, ∀ i < j,
       (([⟨[], 10, 19⟩, ⟨[], 30, 39⟩] : List DataFile).getD i default).start ≤
         (([⟨[], 10, 19⟩, ⟨[], 30, 39⟩] : List DataFile).getD j default).start) ∧
     (∀ j < 2, ∀ i < j,
       (([⟨[], 10, 19⟩, ⟨[], 30, 39⟩] : List DataFile).getD i default).end_ ≤
         (([⟨[], 10, 19⟩, ⟨[], 30, 39⟩] : List DataFile).getD j default).end_)) ∧
    (∀ df, find_event_file [⟨[], 10, 19⟩, ⟨[], 30, 39⟩] 27 = some df →
      (27 : ℚ) ≤ df.end_ ∧
      (df.start ≤ 27 ∨ ∀ df' ∈ ([⟨[], 10, 19⟩, ⟨[], 30, 39⟩] : List DataFile),
        ¬(df'.start ≤ 27 ∧ (27 : ℚ) ≤ df'.end_))) :=
  ⟨⟨by decide, by decide⟩,
   (C2_binary_search_contract [⟨[], 10, 19⟩, ⟨[], 30, 39⟩] 27 (by decide) (by decide)).2.2.2⟩

/-! ### Range lookup (C3) -/

/-- Pairwise ordering of a projection, transported to `getD` indexing. -/
theorem pairwise_getD (f : DataFile → ℚ) (l : List DataFile)
    (hp : l.Pairwise (fun x y => f x ≤ f y)) :
    ∀ j < l.length, ∀ i < j, f (l.getD i default) ≤ f (l.getD j default) := by
  intro j hj i hij
  rw [getD_eq_getElem_of_lt _ _ (hij.trans hj), getD_eq_getElem_of_lt _ _ hj]
  exact List.pairwise_iff_getElem.mp hp i j (hij.trans hj) hj hij

/-- When every remaining file satisfies the append condition, the scan
loop is a `takeWhile` of the (negated) break condition. -/
theorem findLoop_eq_takeWhile (a b : ℚ) (l : List DataFile)
    (hsel : ∀ df ∈ l, a ≤ df.start ∨ a ≤ df.end_) :
    findLoop a (some b) l
      = l.takeWhile (fun df => !(qTruthy (some b) && decide (qVal (some b) < df.start))) := by
  induction l with
  | nil => rfl
  | cons df rest ih =>
    rw [findLoop, List.takeWhile_cons]
    by_cases hbrk : qTruthy (some b) = true ∧ qVal (some b) < df.start
    · rw [if_pos hbrk]
      have hp : (!(qTruthy (some b) && decide (qVal (some b) < df.start))) = false := by
        simp [hbrk.1, hbrk.2]
      rw [hp]
      simp
    · rw [if_neg hbrk]
      have hp : (!(qTruthy (some b) && decide (qVal (some b) < df.start))) = true := by
        simp only [Bool.not_eq_true', Bool.and_eq_false_iff]
        by_cases hq : qTruthy (some b) = true
        · right
          simp only [decide_eq_false_iff_not]
          exact fun hlt => hbrk ⟨hq, hlt⟩
        · left
          exact Bool.not_eq_true _ ▸ hq
      rw [hp, if_pos rfl]
      rw [if_pos (hsel df (List.mem_cons_self df rest))]
      simp only [List.singleton_append, List.cons.injEq, true_and]
      exact ih (fun x hx => hsel x (List.mem_cons_of_mem df hx))

/-- On a list sorted ascending by `start`, the scan prefix is the filter:
once a file's `start` exceeds a truthy bound, so does every later one. -/
theorem takeWhile_break_eq_filter (b : ℚ) (l : List DataFile)
    (hsorted : l.Pairwise (fun x y => x.start ≤ y.start)) :
    l.takeWhile (fun df => !(qTruthy (some b) && decide (qVal (some b) < df.start)))
      = l.filter (fun df => !(qTruthy (some b) && decide (qVal (some b) < df.start))) := by
  induction l with
  | nil => rfl
  | cons df rest ih =>
    obtain ⟨hhd, hrest⟩ := List.pairwise_cons.mp hsorted
    rw [List.takeWhile_cons, List.filter_cons]
    by_cases hp : (!(qTruthy (some b) && decide (qVal (some b) < df.start))) = true
    · rw [hp]
      simp only [if_true]
      rw [ih hrest]
    · have hp' : (!(qTruthy (some b) && decide (qVal (some b) < df.start))) = false :=
        Bool.not_eq_true _ ▸ hp
      rw [hp']
      simp only [Bool.false_eq_true, if_false]
      have hdf : qTruthy (some b) = true ∧ qVal (some b) < df.start := by
        simpa [Bool.not_eq_false'] using hp'
      symm
      rw [List.filter_eq_nil_iff]
      intro x hx
      have hlt : qVal (some b) < x.start := lt_of_lt_of_le hdf.2 (hhd x hx)
      simp [hdf.1, hlt]

/-- On a suffix all of whose files end at or after `a`, the scan loop
computes exactly the claim's selection filter. -/
theorem findLoop_drop_eq_filter (files : List DataFile) (a b : ℚ) (i : Nat)
    (hsort : files.Pairwise (fun x y => x.start ≤ y.start))
    (hend : ∀ df ∈ files.drop i, a ≤ df.end_) :
    findLoop a (some b) (files.drop i) = (files.drop i).filter (overlapsQuery a b) := by
  rw [findLoop_eq_takeWhile a b _ (fun df h => Or.inr (hend df h))]
  rw [takeWhile_break_eq_filter b _ (hsort.sublist (List.drop_sublist i files))]
  apply List.filter_congr
  intro df hdf
  have ha : decide (a ≤ df.end_) = true := decide_eq_true (hend df hdf)
  unfold overlapsQuery
  simp only [qTruthy, qVal, ha, Bool.true_and]
  by_cases hb : b = 0
  · simp [hb]
  · by_cases hsb : df.start ≤ b
    · simp [hb, hsb, not_lt_of_le hsb]
    · simp [hb, hsb, lt_of_not_le hsb]

/-- Files strictly before the scan start (all ending before `a`) never
pass the claim's selection filter. -/
theorem filter_take_eq_nil (files : List DataFile) (a b : ℚ) (i : Nat)
    (hlt : ∀ j, j < i → j < files.length → (files.getD j default).end_ < a) :
    (files.take i).filter (overlapsQuery a b) = [] := by
  rw [List.filter_eq_nil_iff]
  intro df hdf
  obtain ⟨k, hk, hdf'⟩ := List.mem_iff_getElem.mp hdf
  have hklen : k < files.length := by
    have := hk
    rw [List.length_take] at this
    omega
  have hki : k < i := by
    have := hk
    rw [List.length_take] at this
    omega
  have hgt : (files.take i)[k] = files[k] := List.getElem_take files
  have hend : df.end_ < a := by
    rw [← hdf', hgt, ← getD_eq_getElem_of_lt files k hklen]
    exact hlt k hki hklen
  simp [overlapsQuery, not_le_of_lt hend]

/-- Claim C3 (amended): range-lookup exactness.  For a FileIndex whose
entries are sorted ascending by `start`, **whose `end` timestamps are also
non-decreasing, and whose files have `start ≤ end`** (the DataFile
invariant), `find(a, b)` (with `b = 0` an open upper bound) returns
exactly the files selected by `overlapsQuery` — every file with
`end ≥ a` and (`b = 0` or `start ≤ b`) and no other, `none` when no file
qualifies; and for a well-formed query (`b = 0` or `a ≤ b`) a file
satisfies `overlapsQuery` iff its range genuinely intersects `[a, b]`
(endpoint equality included). -/
theorem C3_find_range (files : List DataFile) (a b : ℚ)
    (hsort : files.Pairwise (fun x y => x.start ≤ y.start))
    (hmono : files.Pairwise (fun x y => x.end_ ≤ y.end_))
    (hwf : ∀ df ∈ files, df.start ≤ df.end_) :
    (FileIndex.find files a (some b)
      = (if files.filter (overlapsQuery a b) = [] then none
         else some (files.filter (overlapsQuery a b)))) ∧
    (∀ df : DataFile, (b = 0 ∨ a ≤ b) → df.start ≤ df.end_ →
      (overlapsQuery a b df = true ↔
        ∃ x : ℚ, a ≤ x ∧ (b = 0 ∨ x ≤ b) ∧ df.start ≤ x ∧ x ≤ df.end_)) := by
  constructor
  · unfold FileIndex.find
    cases hbs : binary_search files a with
    | some i =>
      simp only [hbs]
      obtain ⟨hilen, hiend, hileft⟩ :=
        binary_search_some_spec files a (pairwise_getD DataFile.end_ files hmono) i hbs
      have hend : ∀ df ∈ files.drop i, a ≤ df.end_ := by
        intro df hdf
        obtain ⟨k, hk, hdf'⟩ := List.mem_iff_getElem.mp hdf
        have hik : i + k < files.length := by
          have hh := hk
          rw [List.length_drop] at hh
          omega
        rw [List.getElem_drop] at hdf'
        rcases Nat.eq_zero_or_pos k with hk0 | hkpos
        · subst hk0
          simp only [Nat.add_zero] at hdf'
          rw [← hdf', ← getD_eq_getElem_of_lt files i hilen]
          exact hiend
        · have hle := pairwise_getD DataFile.end_ files hmono (i + k) hik i (by omega)
          rw [getD_eq_getElem_of_lt files (i + k) hik, hdf'] at hle
          exact le_trans hiend hle
      have hloop := findLoop_drop_eq_filter files a b i hsort hend
      have hsplit : files.filter (overlapsQuery a b)
          = (files.take i).filter (overlapsQuery a b) ++ (files.drop i).filter (overlapsQuery a b) := by
        rw [← List.filter_append, List.take_append_drop]
      have hpre : (files.take i).filter (overlapsQuery a b) = [] :=
        filter_take_eq_nil files a b i (fun j hj _ => hileft j hj)
      rw [hloop, hsplit, hpre, List.nil_append]
    | none =>
      simp only [hbs]
      by_cases hempty : files = []
      · simp [hempty]
      · have hlen : 0 < files.length := List.length_pos.mpr hempty
        rcases (binary_search_none_iff files a).mp hbs with h | h
        · exact absurd h hempty
        · rw [if_pos hempty]
          rcases h with hlt0 | hlast
          · rw [if_pos (le_of_lt hlt0)]
            have hstart : ∀ df ∈ files, a ≤ df.start := by
              intro df hdf
              obtain ⟨k, hk, hdf'⟩ := List.mem_iff_getElem.mp hdf
              rcases Nat.eq_zero_or_pos k with hk0 | hkpos
              · subst hk0
                rw [← hdf', ← getD_eq_getElem_of_lt files 0 hlen]
                exact le_of_lt hlt0
              · have hle := pairwise_getD DataFile.start files hsort k hk 0 hkpos
                rw [getD_eq_getElem_of_lt files k hk, hdf'] at hle
                exact le_of_lt (lt_of_lt_of_le hlt0 hle)
            have hend : ∀ df ∈ files.drop 0, a ≤ df.end_ := by
              rw [List.drop_zero]
              intro df hdf
              exact le_trans (hstart df hdf) (hwf df hdf)
            have hloop := findLoop_drop_eq_filter files a b 0 hsort hend
            rw [List.drop_zero] at hloop
            simp only [List.drop_zero, hloop]
          · have h0mem : files.getD 0 default ∈ files := by
              rw [getD_eq_getElem_of_lt files 0 hlen]
              exact files.getElem_mem hlen
            have hwf0 := hwf _ h0mem
            have h0last : (files.getD 0 default).end_ ≤ (files.getD (files.length - 1) default).end_ := by
              rcases Nat.eq_zero_or_pos (files.length - 1) with heq | hpos
              · rw [heq]
              · exact pairwise_getD DataFile.end_ files hmono (files.length - 1) (by omega) 0 hpos
            have hnotfb : ¬ a ≤ (files.getD 0 default).start := fun hle =>
              absurd (lt_of_le_of_lt (le_trans hle (le_trans hwf0 h0last)) hlast) (lt_irrefl a)
            rw [if_neg hnotfb, if_pos (le_of_lt hlast)]
            have hlast_mem : files.getD (files.length - 1) default ∈ files := by
              rw [getD_eq_getElem_of_lt files _ (by omega)]
              exact files.getElem_mem (by omega)
            have hwfl := hwf _ hlast_mem
            have hdrop : files.drop (files.length - 1) = [files.getD (files.length - 1) default] := by
              rw [List.drop_eq_getElem_cons (by omega : files.length - 1 < files.length)]
              have hsucc : files.length - 1 + 1 = files.length := by omega
              rw [hsucc, List.drop_length]
              rw [getD_eq_getElem_of_lt files _ (by omega)]
            have hfound : findLoop a (some b) (files.drop (files.length - 1)) = [] := by
              rw [hdrop]
              simp only [findLoop]
              by_cases hbrk : qTruthy (some b) = true ∧
                  qVal (some b) < (files.getD (files.length - 1) default).start
              · rw [if_pos hbrk]
              · rw [if_neg hbrk]
                have happ : ¬(a ≤ (files.getD (files.length - 1) default).start ∨
                    a ≤ (files.getD (files.length - 1) default).end_) := by
                  push_neg
                  exact ⟨lt_of_le_of_lt hwfl hlast, hlast⟩
                rw [if_neg happ]
                simp [findLoop]
            have hfilter : files.filter (overlapsQuery a b) = [] := by
              rw [List.filter_eq_nil_iff]
              intro df hdf
              obtain ⟨k, hk, hdf'⟩ := List.mem_iff_getElem.mp hdf
              have hkend : df.end_ ≤ (files.getD (files.length - 1) default).end_ := by
                rcases Nat.eq_or_lt_of_le (by omega : k ≤ files.length - 1) with heq | hlt
                · rw [← hdf', ← getD_eq_getElem_of_lt files k hk, heq]
                · have hh := pairwise_getD DataFile.end_ files hmono (files.length - 1) (by omega) k hlt
                  rw [getD_eq_getElem_of_lt files k hk, hdf'] at hh
                  exact hh
              have hlta : df.end_ < a := lt_of_le_of_lt hkend hlast
              simp [overlapsQuery, not_le_of_lt hlta]
            simp only [hfound, hfilter]
  · intro df hab hwfdf
    unfold overlapsQuery
    constructor
    · intro hq
      simp only [Bool.and_eq_true, Bool.or_eq_true, decide_eq_true_eq] at hq
      refine ⟨max a df.start, le_max_left a df.start, ?_, le_max_right a df.start, ?_⟩
      · rcases hq.2 with hb0 | hsb
        · exact Or.inl hb0
        · rcases hab with hb0 | hble
          · exact Or.inl hb0
          · exact Or.inr (max_le hble hsb)
      · exact max_le hq.1 hwfdf
    · rintro ⟨x, hax, hxb, hsx, hxe⟩
      simp only [Bool.and_eq_true, Bool.or_eq_true, decide_eq_true_eq]
      refine ⟨le_trans hax hxe, ?_⟩
      rcases hxb with hb0 | hxb
      · exact Or.inl hb0
      · exact Or.inr (le_trans hsx hxb)

/-- Counterexample to C3 as stated: sorting by `start` alone is not
enough.  With the overlapping index `[(0,100), (1,2)]` (sorted ascending
by `start`, each `start ≤ end`), the open-ended query `[50, ∞)` returns
`none` although the first file's range contains `50`. -/
theorem C3_counterexample :
    List.Pairwise (fun x y => x.start ≤ y.start) ([⟨['a'], 0, 100⟩, ⟨['b'], 1, 2⟩] : List DataFile) ∧
    (∀ df ∈ ([⟨['a'], 0, 100⟩, ⟨['b'], 1, 2⟩] : List DataFile), df.start ≤ df.end_) ∧
    FileIndex.find [⟨['a'], 0, 100⟩, ⟨['b'], 1, 2⟩] 50 (some 0) = none ∧
    ((⟨['a'], 0, 100⟩ : DataFile) ∈ ([⟨['a'], 0, 100⟩, ⟨['b'], 1, 2⟩] : List DataFile) ∧
      (⟨['a'], 0, 100⟩ : DataFile).start ≤ 50 ∧ (50 : ℚ) ≤ (⟨['a'], 0, 100⟩ : DataFile).end_) := by
  refine ⟨?_, ?_, ?_, ?_⟩ <;> decide

/-- Witness for C3 on the spec's scenario index `[10-19, 20-25, 30-39]`
with query `[5, 105]`. -/
theorem C3_witness :
    (List.Pairwise (fun x y => x.start ≤ y.start)
        ([⟨['a'], 10, 19⟩, ⟨['b'], 20, 25⟩, ⟨['c'], 30, 39⟩] : List DataFile) ∧
     List.Pairwise (fun x y => x.end_ ≤ y.end_)
        ([⟨['a'], 10, 19⟩, ⟨['b'], 20, 25⟩, ⟨['c'], 30, 39⟩] : List DataFile) ∧
     ∀ df ∈ ([⟨['a'], 10, 19⟩, ⟨['b'], 20, 25⟩, ⟨['c'], 30, 39⟩] : List DataFile), df.start ≤ df.end_) ∧
    FileIndex.find [⟨['a'], 10, 19⟩, ⟨['b'], 20, 25⟩, ⟨['c'], 30, 39⟩] 5 (some 105)
      = (if ([⟨['a'], 10, 19⟩, ⟨['b'], 20, 25⟩, ⟨['c'], 30, 39⟩] : List DataFile).filter (overlapsQuery 5 105) = []
         then none
         else some (([⟨['a'], 10, 19⟩, ⟨['b'], 20, 25⟩, ⟨['c'], 30, 39⟩] : List DataFile).filter (overlapsQuery 5 105))) :=
  ⟨⟨by decide, by decide, by decide⟩,
   (C3_find_range [⟨['a'], 10, 19⟩, ⟨['b'], 20, 25⟩, ⟨['c'], 30, 39⟩] 5 105
      (by decide) (by decide) (by decide)).1⟩

/-! ### Digit-string and decimal-rendering lemmas -/

theorem takeWhile_append_not {p : Char → Bool} (a : List Char) (x : Char) (r : List Char)
    (ha : ∀ c ∈ a, p c = true) (hx : p x = false) :
    (a ++ x :: r).takeWhile p = a := by
  induction a with
  | nil => simp [List.takeWhile_cons, hx]
  | cons c cs ih =>
    simp only [List.cons_append, List.takeWhile_cons, ha c (List.mem_cons_self c cs),
      if_true, List.cons.injEq, true_and]
    exact ih (fun y hy => ha y (List.mem_cons_of_mem c hy))

theorem takeWhile_all_true {p : Char → Bool} (l : List Char) (h : ∀ c ∈ l, p c = true) :
    l.takeWhile p = l := by
  induction l with
  | nil => rfl
  | cons c cs ih =>
    simp only [List.takeWhile_cons, h c (List.mem_cons_self c cs), if_true, List.cons.injEq,
      true_and]
    exact ih (fun y hy => h y (List.mem_cons_of_mem c hy))

theorem dropWhile_all_false {p : Char → Bool} (l : List Char) (h : ∀ c ∈ l, p c = false) :
    l.dropWhile p = l := by
  cases l with
  | nil => rfl
  | cons c cs => rw [List.dropWhile_cons, h c (List.mem_cons_self c cs)]; rfl

theorem strip_eq_self (l : List Char) (h : ∀ c ∈ l, isSpaceC c = false) : strip l = l := by
  unfold strip stripLeft stripRight
  rw [dropWhile_all_false l h,
      dropWhile_all_false l.reverse (fun c hc => h c (List.mem_reverse.mp hc)),
      List.reverse_reverse]

theorem digitChar_isDig : ∀ d < 10, isDig (digitChar d) = true := by decide

theorem digToNat_digitChar : ∀ d < 10, digToNat (digitChar d) = d := by decide

theorem isDig_not_space (c : Char) (h : isDig c = true) : isSpaceC c = false := by
  simp only [isDig, Bool.and_eq_true, decide_eq_true_eq] at h
  simp only [isSpaceC, Bool.or_eq_false_iff, decide_eq_false_iff_not]
  omega

theorem isDig_ne (c : Char) (h : isDig c = true) :
    c ≠ '-' ∧ c ≠ '+' ∧ c ≠ '.' ∧ c ≠ ',' ∧ c ≠ ':' ∧ c ≠ '\n' ∧ c ≠ '/' ∧ c ≠ ' ' := by
  refine ⟨?_, ?_, ?_, ?_, ?_, ?_, ?_, ?_⟩ <;>
    (rintro rfl; exact absurd h (by decide))

theorem toDecimalAux_irrel : ∀ f1 f2 n, n < f1 → n < f2 → toDecimalAux f1 n = toDecimalAux f2 n := by
  intro f1
  induction f1 with
  | zero => omega
  | succ f1 ih =>
    intro f2 n h1 h2
    cases f2 with
    | zero => omega
    | succ f2 =>
      simp only [toDecimalAux]
      by_cases h10 : n < 10
      · simp [h10]
      · rw [if_neg h10, if_neg h10]
        have hdiv : n / 10 < n := Nat.div_lt_self (by omega) (by omega)
        rw [ih f2 (n / 10) (by omega) (by omega)]

theorem toDecimal_of_lt (n : Nat) (h : n < 10) : toDecimal n = [digitChar n] := by
  unfold toDecimal
  simp [toDecimalAux, h]

theorem toDecimal_of_ge (n : Nat) (h : 10 ≤ n) :
    toDecimal n = toDecimal (n / 10) ++ [digitChar (n % 10)] := by
  have hdiv : n / 10 < n := Nat.div_lt_self (by omega) (by omega)
  unfold toDecimal
  conv_lhs => rw [toDecimalAux]
  rw [if_neg (by omega)]
  rw [toDecimalAux_irrel n (n / 10 + 1) (n / 10) (by omega) (by omega)]

theorem toDecimal_all_isDig : ∀ n : Nat, ∀ c ∈ toDecimal n, isDig c = true := by
  intro n
  induction n using Nat.strong_induction_on with
  | _ n ih =>
    by_cases h : n < 10
    · rw [toDecimal_of_lt n h]
      intro c hc
      rw [List.mem_singleton] at hc
      rw [hc]
      exact digitChar_isDig n h
    · rw [toDecimal_of_ge n (by omega)]
      intro c hc
      rcases List.mem_append.mp hc with hc | hc
      · exact ih (n / 10) (Nat.div_lt_self (by omega) (by omega)) c hc
      · rw [List.mem_singleton] at hc
        rw [hc]
        exact digitChar_isDig (n % 10) (Nat.mod_lt n (by omega))

theorem toDecimal_ne_nil (n : Nat) : toDecimal n ≠ [] := by
  by_cases h : n < 10
  · rw [toDecimal_of_lt n h]
    simp
  · rw [toDecimal_of_ge n (by omega)]
    simp

theorem digitsVal_snoc (a : List Char) (d : Char) :
    digitsVal (a ++ [d]) = 10 * digitsVal a + digToNat d := by
  simp [digitsVal, List.foldl_append]

theorem digitsVal_toDecimal : ∀ n : Nat, digitsVal (toDecimal n) = n := by
  intro n
  induction n using Nat.strong_induction_on with
  | _ n ih =>
    by_cases h : n < 10
    · rw [toDecimal_of_lt n h]
      show 10 * 0 + digToNat (digitChar n) = n
      rw [digToNat_digitChar n h]
      omega
    · rw [toDecimal_of_ge n (by omega), digitsVal_snoc,
          ih (n / 10) (Nat.div_lt_self (by omega) (by omega)),
          digToNat_digitChar (n % 10) (Nat.mod_lt n (by omega))]
      omega

theorem parseDigits_toDecimal (n : Nat) : parseDigits (toDecimal n) = some n := by
  unfold parseDigits
  rw [if_pos ⟨toDecimal_ne_nil n, List.all_eq_true.mpr (toDecimal_all_isDig n)⟩,
      digitsVal_toDecimal n]

theorem pyInt_digits (l : List Char) (hne : l ≠ []) (h : ∀ c ∈ l, isDig c = true) :
    pyInt l = (parseDigits l).map (fun n => (n : Int)) := by
  unfold pyInt
  rw [strip_eq_self l (fun c hc => isDig_not_space c (h c hc))]
  cases l with
  | nil => exact absurd rfl hne
  | cons c cs =>
    have hd := h c (List.mem_cons_self c cs)
    have htake : (c :: cs).take 1 = [c] := by simp
    rw [htake]
    rw [if_neg (by simp [(isDig_ne c hd).1]), if_neg (by simp [(isDig_ne c hd).2.1])]

theorem pyInt_toDecimal (n : Nat) : pyInt (toDecimal n) = some (n : Int) := by
  rw [pyInt_digits _ (toDecimal_ne_nil n) (toDecimal_all_isDig n), parseDigits_toDecimal]
  rfl

/-! ### Save partitioning (C5) -/

/-- On non-negative rationals, Python's `'%d'` truncation is the floor. -/
theorem pyTrunc_eq_floor (q : ℚ) (h : 0 ≤ q) : pyTrunc q = ⌊q⌋ := by
  unfold pyTrunc
  rw [Rat.floor_def]
  exact Int.tdiv_eq_ediv (Rat.num_nonneg.mpr h) (Int.natCast_nonneg q.den)

/-- Truncation commutes with adding the 60-second window width (for
non-negative timestamps). -/
theorem pyTrunc_add_60 (q : ℚ) (h : 0 ≤ q) : pyTrunc (q + 60) = pyTrunc q + 60 := by
  rw [pyTrunc_eq_floor q h, pyTrunc_eq_floor (q + 60) (by linarith)]
  exact_mod_cast Int.floor_add_int q (60 : ℤ)

/-- For a non-negative integer argument, `'%d'` renders plain digits. -/
theorem toDecimalInt_of_nonneg (i : Int) (h : 0 ≤ i) : toDecimalInt i = toDecimal i.toNat := by
  unfold toDecimalInt
  rw [if_neg (not_lt.mpr h)]

/-- `basename` recovers the file name from a joined path when the name
holds no separator. -/
theorem basename_join_paths (d name : List Char) (h : '/' ∉ name) :
    basename (join_paths d name) = name := by
  unfold basename join_paths
  rw [List.reverse_append, List.reverse_cons, List.append_assoc]
  simp only [List.singleton_append]
  rw [takeWhile_append_not name.reverse '/' d.reverse
    (fun c hc => by
      simp only [decide_eq_true_eq]
      intro hceq
      exact h (hceq ▸ List.mem_reverse.mp hc))
    (by simp)]
  exact List.reverse_reverse name

/-- Dropping while a predicate holds runs past a satisfying prefix and
stops at the first failure. -/
theorem dropWhile_append_not {p : Char → Bool} (a : List Char) (x : Char) (r : List Char)
    (ha : ∀ c ∈ a, p c = true) (hx : p x = false) :
    (a ++ x :: r).dropWhile p = x :: r := by
  induction a with
  | nil => simp [List.dropWhile_cons, hx]
  | cons c cs ih =>
    simp only [List.cons_append, List.dropWhile_cons, ha c (List.mem_cons_self c cs), if_true]
    exact ih (fun y hy => ha y (List.mem_cons_of_mem c hy))

/-- `dirname` recovers the directory from a joined path when the name
holds no separator. -/
theorem dirname_join_paths (d name : List Char) (h : '/' ∉ name) :
    dirname (join_paths d name) = d := by
  unfold dirname join_paths
  rw [List.reverse_append, List.reverse_cons, List.append_assoc]
  simp only [List.singleton_append]
  rw [dropWhile_append_not name.reverse '/' d.reverse
    (fun c hc => by
      simp only [decide_eq_true_eq]
      intro hceq
      exact h (hceq ▸ List.mem_reverse.mp hc))
    (by simp)]
  simp

/-- The window names this store generates contain no path separator. -/
theorem slash_not_mem_window_name (a b : Nat) : '/' ∉ toDecimal a ++ '-' :: toDecimal b := by
  intro hmem
  rcases List.mem_append.mp hmem with h | h
  · exact (isDig_ne '/' (toDecimal_all_isDig a '/' h)).2.2.2.2.2.2.1 rfl
  · rcases List.mem_cons.mp h with h | h
    · exact absurd h (by decide)
    · exact (isDig_ne '/' (toDecimal_all_isDig b '/' h)).2.2.2.2.2.2.1 rfl

/-- Re-parsing a generated `<start>-<end>` window name recovers the two
decimal values. -/
theorem load_data_file_window (root : List Char) (a b : Nat) :
    _load_data_file root (toDecimal a ++ '-' :: toDecimal b)
      = some ⟨join_paths root (toDecimal a ++ '-' :: toDecimal b), ((a : Int) : ℚ), ((b : Int) : ℚ)⟩ := by
  simp only [_load_data_file]
  have hds : (toDecimal a ++ '-' :: toDecimal b).takeWhile isDig = toDecimal a :=
    takeWhile_append_not _ _ _ (toDecimal_all_isDig a) (by decide)
  have hp : (toDecimal a ++ '-' :: toDecimal b).takeWhile (fun c => c ≠ '-') = toDecimal a :=
    takeWhile_append_not _ _ _
      (fun c hc => by
        simp only [decide_eq_true_eq]
        exact (isDig_ne c (toDecimal_all_isDig a c hc)).1)
      (by simp)
  have hrest : (toDecimal a ++ '-' :: toDecimal b).drop (toDecimal a).length = '-' :: toDecimal b :=
    List.drop_left (toDecimal a) ('-' :: toDecimal b)
  have hq : (toDecimal a ++ '-' :: toDecimal b).drop ((toDecimal a).length + 1) = toDecimal b := by
    have hsplit : toDecimal a ++ '-' :: toDecimal b = (toDecimal a ++ ['-']) ++ toDecimal b := by
      simp
    rw [hsplit]
    have hlen : (toDecimal a).length + 1 = (toDecimal a ++ ['-']).length := by
      simp
    rw [hlen]
    exact List.drop_left _ _
  rw [hds, hrest, hp, hq]
  rw [if_pos ⟨toDecimal_ne_nil a, by simp,
      by
        simp only [List.drop_succ_cons, List.drop_zero]
        rw [takeWhile_all_true _ (toDecimal_all_isDig b)]
        exact toDecimal_ne_nil b⟩]
  rw [pyInt_toDecimal a, pyInt_toDecimal b]

/-- Claim C5 (amended): save partitioning.  `save(e)` selects the
partition returned by `find_event_file(e.timestamp)` and appends
`serialize(e)` plus one newline byte to that partition's buffer, flushing
synchronously iff `flush_interval ≤ 0`.  When no partition exists, the
new DataFile registered with the index spans `[⌊ts⌋, ⌊ts⌋ + 60]` — the
`'%d'`-formatted (truncated) timestamp, **not** the exact float span
`[ts, ts + 60]` of the claim — under the filename
`"<⌊ts⌋>-<⌊ts⌋ + 60>"`; the event's timestamp still falls inside the
truncated window. -/
theorem C5_save_partitioning (st : StoreState) (e : Event) (hts : 0 < e.timestamp) :
    (∀ df, find_event_file st.index e.timestamp = some df →
      (save st e).index = st.index ∧
      ∃ m : MemoryFile,
        assocGet (save st e).open_files df.path = some m ∧
        m.buffer = ((assocGet st.open_files df.path).map MemoryFile.buffer).getD []
            ++ serialize e ++ ['\n'] ∧
        (st.flush_interval ≤ 0 →
          (save st e).disk = assocSet st.disk (join_paths m.path m.name) m.buffer) ∧
        (0 < st.flush_interval → (save st e).disk = st.disk)) ∧
    (find_event_file st.index e.timestamp = none →
      (save st e).index
          = List.insertionSort (fun x y => x.start ≤ y.start)
              (st.index ++
                [⟨join_paths st.root_dir
                    (toDecimal (pyTrunc e.timestamp).toNat
                      ++ '-' :: toDecimal (pyTrunc (e.timestamp + 60)).toNat),
                  ((pyTrunc e.timestamp : Int) : ℚ),
                  ((pyTrunc e.timestamp : Int) : ℚ) + 60⟩]) ∧
      pyTrunc (e.timestamp + 60) = pyTrunc e.timestamp + 60 ∧
      ((pyTrunc e.timestamp : Int) : ℚ) ≤ e.timestamp ∧
      e.timestamp < ((pyTrunc e.timestamp : Int) : ℚ) + 1 ∧
      ∃ m : MemoryFile,
        assocGet (save st e).open_files
            (join_paths st.root_dir
              (toDecimal (pyTrunc e.timestamp).toNat
                ++ '-' :: toDecimal (pyTrunc (e.timestamp + 60)).toNat)) = some m ∧
        m.buffer = ((assocGet st.open_files
              (join_paths st.root_dir
                (toDecimal (pyTrunc e.timestamp).toNat
                  ++ '-' :: toDecimal (pyTrunc (e.timestamp + 60)).toNat))).map MemoryFile.buffer).getD []
            ++ serialize e ++ ['\n'] ∧
        (st.flush_interval ≤ 0 →
          (save st e).disk = assocSet st.disk (join_paths m.path m.name) m.buffer) ∧
        (0 < st.flush_interval → (save st e).disk = st.disk)) := by
  have htrunc0 : (0 : Int) ≤ pyTrunc e.timestamp := by
    rw [pyTrunc_eq_floor _ (le_of_lt hts)]
    exact Int.floor_nonneg.mpr (le_of_lt hts)
  have htrunc60 : (0 : Int) ≤ pyTrunc (e.timestamp + 60) := by
    rw [pyTrunc_eq_floor _ (by linarith)]
    exact Int.floor_nonneg.mpr (by linarith)
  constructor
  · intro df hdf
    have hget : _get_event_file st e.timestamp = (df, st) := by
      unfold _get_event_file
      rw [hdf]
    refine ⟨?_, ?_⟩
    · unfold save
      rw [hget]
      by_cases hfl : st.flush_interval ≤ 0 <;> simp [hfl]
    · unfold save
      rw [hget]
      cases hopen : assocGet st.open_files df.path with
      | some m0 =>
        refine ⟨⟨m0.name, m0.path, m0.buffer ++ serialize e ++ ['\n']⟩, ?_, by simp, ?_, ?_⟩
        · by_cases hfl : st.flush_interval ≤ 0 <;>
            simp only [hopen, hfl, MemoryFile.write, List.append_assoc, if_true, if_false] <;>
            exact assocGet_assocSet _ _ _
        · intro hfl
          simp only [hopen, hfl, MemoryFile.write, MemoryFile.flush, List.append_assoc, if_true]
        · intro hfl
          simp only [hopen, not_le.mpr hfl, MemoryFile.write, List.append_assoc, if_false]
      | none =>
        refine ⟨⟨basename df.path, dirname df.path, [] ++ serialize e ++ ['\n']⟩, ?_, by simp, ?_, ?_⟩
        · by_cases hfl : st.flush_interval ≤ 0 <;>
            simp only [hopen, hfl, MemoryFile.write, _open_file, List.append_assoc, if_true, if_false] <;>
            exact assocGet_assocSet _ _ _
        · intro hfl
          simp only [hopen, hfl, MemoryFile.write, MemoryFile.flush, _open_file,
            List.append_assoc, if_true]
        · intro hfl
          simp only [hopen, not_le.mpr hfl, MemoryFile.write, _open_file, List.append_assoc, if_false]
  · intro hdf
    have hname : toDecimalInt (pyTrunc e.timestamp) ++ '-' :: toDecimalInt (pyTrunc (e.timestamp + 60))
        = toDecimal (pyTrunc e.timestamp).toNat ++ '-' :: toDecimal (pyTrunc (e.timestamp + 60)).toNat := by
      rw [toDecimalInt_of_nonneg _ htrunc0, toDecimalInt_of_nonneg _ htrunc60]
    have hbase : basename (join_paths st.root_dir
        (toDecimal (pyTrunc e.timestamp).toNat ++ '-' :: toDecimal (pyTrunc (e.timestamp + 60)).toNat))
        = toDecimal (pyTrunc e.timestamp).toNat ++ '-' :: toDecimal (pyTrunc (e.timestamp + 60)).toNat :=
      basename_join_paths _ _ (slash_not_mem_window_name _ _)
    have hload := load_data_file_window st.root_dir (pyTrunc e.timestamp).toNat
      (pyTrunc (e.timestamp + 60)).toNat
    have hcast1 : (((pyTrunc e.timestamp).toNat : Int) : ℚ) = ((pyTrunc e.timestamp : Int) : ℚ) := by
      rw [Int.toNat_of_nonneg htrunc0]
    have hcast2 : (((pyTrunc (e.timestamp + 60)).toNat : Int) : ℚ)
        = ((pyTrunc e.timestamp : Int) : ℚ) + 60 := by
      rw [Int.toNat_of_nonneg htrunc60, pyTrunc_add_60 _ (le_of_lt hts)]
      push_cast
      ring
    have hget : _get_event_file st e.timestamp
        = (_get_new_data_file st.root_dir e.timestamp,
           ⟨st.root_dir, st.flush_interval,
            List.insertionSort (fun x y => x.start ≤ y.start)
              (st.index ++
                [⟨join_paths st.root_dir
                    (toDecimal (pyTrunc e.timestamp).toNat
                      ++ '-' :: toDecimal (pyTrunc (e.timestamp + 60)).toNat),
                  ((pyTrunc e.timestamp : Int) : ℚ),
                  ((pyTrunc e.timestamp : Int) : ℚ) + 60⟩]),
            st.open_files, st.disk⟩) := by
      unfold _get_event_file add_file _get_new_data_file
      simp only [hdf]
      rw [hname, hbase, hload]
      simp only [hcast1, hcast2]
    have hpath : (_get_new_data_file st.root_dir e.timestamp).path
        = join_paths st.root_dir
            (toDecimal (pyTrunc e.timestamp).toNat
              ++ '-' :: toDecimal (pyTrunc (e.timestamp + 60)).toNat) := by
      unfold _get_new_data_file join_paths
      rw [hname]
    refine ⟨?_, pyTrunc_add_60 _ (le_of_lt hts), ?_, ?_, ?_⟩
    · unfold save
      rw [hget]
      by_cases hfl : st.flush_interval ≤ 0 <;> simp [hfl]
    · rw [pyTrunc_eq_floor _ (le_of_lt hts)]
      exact Int.floor_le e.timestamp
    · rw [pyTrunc_eq_floor _ (le_of_lt hts)]
      exact Int.lt_floor_add_one e.timestamp
    · unfold save
      rw [hget]
      simp only [hpath]
      cases hopen : assocGet st.open_files (join_paths st.root_dir
          (toDecimal (pyTrunc e.timestamp).toNat
            ++ '-' :: toDecimal (pyTrunc (e.timestamp + 60)).toNat)) with
      | some m0 =>
        refine ⟨⟨m0.name, m0.path, m0.buffer ++ serialize e ++ ['\n']⟩, ?_, by simp, ?_, ?_⟩
        · by_cases hfl : st.flush_interval ≤ 0 <;>
            simp only [hopen, hfl, MemoryFile.write, List.append_assoc, if_true, if_false] <;>
            exact assocGet_assocSet _ _ _
        · intro hfl
          simp only [hopen, hfl, MemoryFile.write, MemoryFile.flush, List.append_assoc, if_true]
        · intro hfl
          simp only [hopen, not_le.mpr hfl, MemoryFile.write, List.append_assoc, if_false]
      | none =>
        refine ⟨⟨basename (_get_new_data_file st.root_dir e.timestamp).path,
            dirname (_get_new_data_file st.root_dir e.timestamp).path,
            [] ++ serialize e ++ ['\n']⟩, ?_, by simp, ?_, ?_⟩
        · by_cases hfl : st.flush_interval ≤ 0 <;>
            simp only [hopen, hpath, hfl, MemoryFile.write, _open_file, List.append_assoc,
              if_true, if_false] <;>
            exact assocGet_assocSet _ _ _
        · intro hfl
          simp only [hopen, hpath, hfl, MemoryFile.write, MemoryFile.flush, _open_file,
            List.append_assoc, if_true]
        · intro hfl
          simp only [hopen, hpath, not_le.mpr hfl, MemoryFile.write, _open_file,
            List.append_assoc, if_false]

/-- Claim C5 counterexample: for the event timestamp `21/2 = 10.5` the newly
registered `DataFile` spans `[10, 70]` (the `'%d'`-truncated bounds that the
filename `"10-70"` encodes and that `add_file` re-parses), not the exact span
`[10.5, 70.5]` the claim promises. -/
theorem C5_counterexample :
    (save ⟨"r".data, 1000, [], [], []⟩
        ⟨some ['a'], some ['s'], mkRat 21 2, [['t']], ['c']⟩).index
      = [⟨"r/10-70".data, 10, 70⟩] ∧
    (10 : ℚ) ≠ mkRat 21 2 := by
  constructor
  · with_unfolding_all decide
  · decide

/-- Witness for `C5_save_partitioning`: the hypotheses hold at the concrete
store/event and the creation branch produces the truncated window. -/
theorem C5_witness :
    (0 : ℚ) < mkRat 21 2 ∧
    find_event_file ([] : List DataFile) (mkRat 21 2) = none ∧
    (save ⟨"r".data, 1000, [], [], []⟩
        ⟨some ['a'], some ['s'], mkRat 21 2, [['t']], ['c']⟩).index
      = List.insertionSort (fun x y => x.start ≤ y.start)
          (([] : List DataFile) ++
            [⟨join_paths "r".data
                (toDecimal (pyTrunc (mkRat 21 2)).toNat
                  ++ '-' :: toDecimal (pyTrunc (mkRat 21 2 + 60)).toNat),
              ((pyTrunc (mkRat 21 2) : Int) : ℚ),
              ((pyTrunc (mkRat 21 2) : Int) : ℚ) + 60⟩]) :=
  ⟨by decide, by decide,
    ((C5_save_partitioning ⟨"r".data, 1000, [], [], []⟩
        ⟨some ['a'], some ['s'], mkRat 21 2, [['t']], ['c']⟩ (by decide)).2
      (by decide)).1⟩

/-- Claim C8 (code bug): the EOF and malformed branches behave as claimed on an
empty stream and a malformed preamble, and an ASCII frame produced by
`serialize` parses back cleanly — but the frame serialized from an event whose
content holds the two-byte character `'é'` is rejected as malformed, because
`parse_event` compares the *decoded character count* of the content against the
declared *byte* count.  A well-formed frame does trigger the error branch,
refuting the claim's final sentence. -/
theorem C8_parser_error_contract :
    parse_event 1 [] = .error .eof ∧
    parse_event 1 "hello\n".data = .error .malformed ∧
    parse_event 1 (serialize ⟨some ['a'], some ['s'], 5, [['t']], ['c']⟩)
      = .ok (⟨some ['a'], some ['s'], 5, [['t']], ['c']⟩, []) ∧
    parse_event 1 (serialize ⟨some ['a'], some ['s'], 5, [['t']], ['é']⟩)
      = .error .malformed := by
  refine ⟨by decide, by decide, by decide, by decide⟩

/-! ### Serialization round-trip (C1) -/

/-- A string of 1-byte characters has as many bytes as characters. -/
theorem strBytes_eq_length (l : List Char) (h : ∀ c ∈ l, c.utf8Size = 1) :
    strBytes l = l.length := by
  induction l with
  | nil => rfl
  | cons c t ih =>
    have hb : strBytes (c :: t) = c.utf8Size + strBytes t := by simp [strBytes]
    rw [hb, h c (List.mem_cons_self c t), ih (fun x hx => h x (List.mem_cons_of_mem c hx))]
    simp [Nat.add_comm]

/-- `readline` on a stream whose first line is `a` (no embedded newline). -/
theorem readLine_append (a b : List Char) (ha : '\n' ∉ a) :
    readLine (a ++ '\n' :: b) = (a ++ ['\n'], b) := by
  induction a with
  | nil => simp [readLine]
  | cons c t ih =>
    have hc : ¬(c = '\n') := fun h => ha (h ▸ List.mem_cons_self c t)
    simp only [List.cons_append, readLine, if_neg hc, List.append_eq]
    rw [ih (fun h => ha (List.mem_cons_of_mem c h))]

/-- Reading exactly the byte size of a prefix returns that prefix. -/
theorem readUpTo_exact : ∀ (a r : List Char), readUpTo (strBytes a) (a ++ r) = some (a, r)
  | [], r => by
    cases r with
    | nil => rfl
    | cons c cs => simp [readUpTo, strBytes]
  | c :: t, r => by
    have hpos := Char.utf8Size_pos c
    have hb : strBytes (c :: t) = c.utf8Size + strBytes t := by simp [strBytes]
    rw [hb]
    simp only [List.cons_append, readUpTo, List.append_eq]
    rw [if_neg (by omega), if_pos (by omega)]
    have hsub : c.utf8Size + strBytes t - c.utf8Size = strBytes t := by omega
    rw [hsub, readUpTo_exact t r]
    rfl

/-- A string without trailing whitespace is fixed by `stripRight`. -/
theorem stripRight_eq_self (l : List Char) (h : ∀ c ∈ l, isSpaceC c = false) :
    stripRight l = l := by
  unfold stripRight
  rw [dropWhile_all_false l.reverse (fun c hc => h c (List.mem_reverse.mp hc)),
      List.reverse_reverse]

/-- `stripRight` leaves a string alone when its (nonempty) tail part does. -/
theorem stripRight_append_fix (x v : List Char) (hv : stripRight v = v) (hne : v ≠ []) :
    stripRight (x ++ v) = x ++ v := by
  have hv2 : v.reverse.dropWhile isSpaceC = v.reverse := by
    have := congrArg List.reverse hv
    rwa [stripRight, List.reverse_reverse] at this
  unfold stripRight
  rw [List.reverse_append, List.dropWhile_append, hv2,
      if_neg (by simp [hne]), ← List.reverse_append, List.reverse_reverse]

/-- A trailing newline is removed by `stripRight`. -/
theorem stripRight_append_newline (x : List Char) :
    stripRight (x ++ ['\n']) = stripRight x := by
  unfold stripRight
  have h1 : (x ++ ['\n']).reverse = '\n' :: x.reverse := by simp
  rw [h1, List.dropWhile_cons, if_pos (by decide)]

/-- `stripLeft` is the identity on a string with a non-space head. -/
theorem stripLeft_cons_false (c : Char) (l : List Char) (h : isSpaceC c = false) :
    stripLeft (c :: l) = c :: l := by
  unfold stripLeft
  rw [List.dropWhile_cons, h]
  rfl

/-- Stripping a header line `label ++ value ++ '\n'` with a non-space label
head and a value without trailing whitespace drops exactly the newline. -/
theorem strip_label_line (c : Char) (lbl v : List Char) (hc : isSpaceC c = false)
    (hlbl : ∀ x ∈ lbl, isSpaceC x = false) (hv : stripRight v = v) :
    strip ((c :: lbl) ++ v ++ ['\n']) = (c :: lbl) ++ v := by
  unfold strip
  have h1 : stripLeft ((c :: lbl) ++ v ++ ['\n']) = (c :: lbl) ++ v ++ ['\n'] := by
    simp only [List.cons_append]
    rw [stripLeft_cons_false _ _ hc]
  rw [h1]
  have h2 : (c :: lbl) ++ v ++ ['\n'] = ((c :: lbl) ++ v) ++ ['\n'] := by simp
  rw [h2, stripRight_append_newline]
  by_cases hne : v = []
  · subst hne
    rw [List.append_nil]
    refine stripRight_eq_self _ ?_
    intro x hx
    rcases List.mem_cons.mp hx with h | h
    · rw [h]; exact hc
    · exact hlbl x h
  · exact stripRight_append_fix _ _ hv hne

/-- Splitting a header line at its first colon. -/
theorem splitColon_label (lbl v : List Char) (h : ':' ∉ lbl) :
    splitColon ((lbl ++ [':']) ++ v) = some (lbl, v) := by
  have hmem : ':' ∈ (lbl ++ [':']) ++ v := by simp
  have hassoc : (lbl ++ [':']) ++ v = lbl ++ ':' :: v := by simp
  have htake : ((lbl ++ [':']) ++ v).takeWhile (fun c => c ≠ ':') = lbl := by
    rw [hassoc]
    refine takeWhile_append_not _ _ _ ?_ (by simp)
    intro x hx
    simp only [decide_eq_true_eq]
    exact fun hcol => h (hcol ▸ hx)
  unfold splitColon
  rw [if_pos hmem, htake]
  have hdrop : ((lbl ++ [':']) ++ v).drop (lbl.length + 1) = v := by
    have hlen : lbl.length + 1 = (lbl ++ [':']).length := by simp
    rw [hlen]
    exact List.drop_left _ _
  rw [hdrop]

/-- Fuel irrelevance for the header-line loop: any fuel above the stream
length gives the same result. -/
theorem parseHeaderLinesAux_irrel : ∀ (f1 f2 : Nat) (s : List Char) (h : Header),
    s.length < f1 → s.length < f2 →
    parseHeaderLinesAux f1 s h = parseHeaderLinesAux f2 s h := by
  intro f1
  induction f1 with
  | zero => intro f2 s h h1 h2; omega
  | succ f1 ih =>
    intro f2 s h h1 h2
    cases f2 with
    | zero => omega
    | succ f2 =>
      simp only [parseHeaderLinesAux]
      by_cases hs : s = []
      · rw [if_pos hs, if_pos hs]
      · rw [if_neg hs, if_neg hs]
        have hlt : (readLine s).2.length < s.length := by
          cases s with
          | nil => exact absurd rfl hs
          | cons c cs => exact readLine_snd_length_lt c cs
        by_cases hline : strip (readLine s).1 = []
        · rw [if_pos hline, if_pos hline]
        · rw [if_neg hline, if_neg hline]
          cases hsp : splitColon (strip (readLine s).1) with
          | none => rfl
          | some pv =>
            simp only []
            by_cases hk1 : pv.1 = "id".data
            · rw [if_pos hk1, if_pos hk1]
              exact ih f2 _ _ (by omega) (by omega)
            · rw [if_neg hk1, if_neg hk1]
              by_cases hk2 : pv.1 = "timestamp".data
              · rw [if_pos hk2, if_pos hk2]
                cases pyFloat pv.2 with
                | none => rfl
                | some q => exact ih f2 _ _ (by omega) (by omega)
              · rw [if_neg hk2, if_neg hk2]
                by_cases hk3 : pv.1 = "source".data
                · rw [if_pos hk3, if_pos hk3]
                  exact ih f2 _ _ (by omega) (by omega)
                · rw [if_neg hk3, if_neg hk3]
                  by_cases hk4 : pv.1 = "tags".data
                  · rw [if_pos hk4, if_pos hk4]
                    exact ih f2 _ _ (by omega) (by omega)
                  · rw [if_neg hk4, if_neg hk4]

/-- One iteration of the header-line loop on a serialized line
`name ++ ":" ++ value ++ "\n"`: the line is consumed and dispatched on the
property name. -/
theorem parseHeaderLinesAux_line (fuel : Nat) (c : Char) (t v rest : List Char) (h : Header)
    (hnsp : ∀ x ∈ c :: t, isSpaceC x = false) (hncol : ':' ∉ c :: t)
    (hnl : '\n' ∉ (c :: t) ++ v) (hv : stripRight v = v) :
    parseHeaderLinesAux (fuel + 1) (((c :: t) ++ [':']) ++ v ++ '\n' :: rest) h
      = (if c :: t = "id".data then
           parseHeaderLinesAux fuel rest ⟨some v, h.timestamp, h.source, h.tags⟩
         else if c :: t = "timestamp".data then
           match pyFloat v with
           | some q => parseHeaderLinesAux fuel rest ⟨h.id, some q, h.source, h.tags⟩
           | none => .error .malformed
         else if c :: t = "source".data then
           parseHeaderLinesAux fuel rest ⟨h.id, h.timestamp, some v, h.tags⟩
         else if c :: t = "tags".data then
           parseHeaderLinesAux fuel rest ⟨h.id, h.timestamp, h.source, some (v.splitOn ',')⟩
         else .error .malformed) := by
  have hline_nl : '\n' ∉ ((c :: t) ++ [':']) ++ v := by
    intro hmem
    rcases List.mem_append.mp hmem with hmem | hmem
    · rcases List.mem_append.mp hmem with hmem | hmem
      · exact hnl (List.mem_append.mpr (Or.inl hmem))
      · simp at hmem
    · exact hnl (List.mem_append.mpr (Or.inr hmem))
  have hread : readLine ((((c :: t) ++ [':']) ++ v) ++ '\n' :: rest)
      = ((((c :: t) ++ [':']) ++ v) ++ ['\n'], rest) := readLine_append _ _ hline_nl
  have hstrip : strip ((((c :: t) ++ [':']) ++ v) ++ ['\n'])
      = ((c :: t) ++ [':']) ++ v := by
    have hshape : (((c :: t) ++ [':']) ++ v) ++ ['\n'] = (c :: (t ++ [':'])) ++ v ++ ['\n'] := by
      simp
    rw [hshape]
    have := strip_label_line c (t ++ [':']) v (hnsp c (List.mem_cons_self c t))
      (fun x hx => by
        rcases List.mem_append.mp hx with hx | hx
        · exact hnsp x (List.mem_cons_of_mem c hx)
        · simp only [List.mem_singleton] at hx
          rw [hx]; rfl)
      hv
    rw [this]
    simp
  have hcolon : splitColon (((c :: t) ++ [':']) ++ v) = some (c :: t, v) :=
    splitColon_label _ _ hncol
  have hs_ne : (((c :: t) ++ [':']) ++ v) ++ '\n' :: rest ≠ [] := by simp
  conv_lhs => rw [show ((c :: t) ++ [':']) ++ v ++ '\n' :: rest
      = ((((c :: t) ++ [':']) ++ v) ++ '\n' :: rest) from by simp]
  rw [parseHeaderLinesAux]
  rw [if_neg hs_ne, hread]
  simp only []
  rw [hstrip, hcolon]
  simp only []
  rw [if_neg (by simp)]

/-- A character that is not a digit does not occur in a decimal rendering. -/
theorem not_mem_toDecimal (c : Char) (hc : isDig c = false) (n : Nat) : c ∉ toDecimal n :=
  fun hmem => absurd (toDecimal_all_isDig n c hmem) (by simp [hc])

set_option maxHeartbeats 2000000 in
/-- Parsing the preamble line written by `serialize`. -/
theorem parse_preamble_serialized (hs cs : Nat) (rest : List Char) :
    parse_preamble ("event: ".data ++ toDecimal (hs + cs)
        ++ ' ' :: (toDecimal hs ++ ' ' :: (toDecimal cs ++ '\n' :: rest)))
      = .ok (⟨((hs + cs : Nat) : Int), ((hs : Nat) : Int), ((cs : Nat) : Int)⟩, rest) := by
  have hnlT : ∀ n : Nat, '\n' ∉ toDecimal n := fun n => not_mem_toDecimal '\n' (by decide) n
  have hnl : '\n' ∉ "event: ".data
      ++ (toDecimal (hs + cs) ++ ' ' :: (toDecimal hs ++ ' ' :: toDecimal cs)) := by
    intro hmem
    rcases List.mem_append.mp hmem with h | h
    · exact absurd h (by decide)
    · rcases List.mem_append.mp h with h | h
      · exact hnlT _ h
      · rcases List.mem_cons.mp h with h | h
        · exact absurd h (by decide)
        · rcases List.mem_append.mp h with h | h
          · exact hnlT _ h
          · rcases List.mem_cons.mp h with h | h
            · exact absurd h (by decide)
            · exact hnlT _ h
  have hA : "event: ".data ++ toDecimal (hs + cs)
        ++ ' ' :: (toDecimal hs ++ ' ' :: (toDecimal cs ++ '\n' :: rest))
      = ("event: ".data ++ (toDecimal (hs + cs) ++ ' ' :: (toDecimal hs ++ ' ' :: toDecimal cs)))
        ++ '\n' :: rest := by
    simp
  rw [hA]
  unfold parse_preamble
  rw [readLine_append _ _ hnl]
  simp only []
  rw [if_neg (by simp)]
  have hvC : stripRight (' ' :: (toDecimal (hs + cs) ++ ' ' :: (toDecimal hs ++ ' ' :: toDecimal cs)))
      = ' ' :: (toDecimal (hs + cs) ++ ' ' :: (toDecimal hs ++ ' ' :: toDecimal cs)) := by
    have hshape : ' ' :: (toDecimal (hs + cs) ++ ' ' :: (toDecimal hs ++ ' ' :: toDecimal cs))
        = (' ' :: (toDecimal (hs + cs) ++ ' ' :: (toDecimal hs ++ [' ']))) ++ toDecimal cs := by
      simp
    rw [hshape]
    exact stripRight_append_fix _ _
      (stripRight_eq_self _ (fun c hc => isDig_not_space c (toDecimal_all_isDig cs c hc)))
      (toDecimal_ne_nil cs)
  have hstrip : strip (("event: ".data
        ++ (toDecimal (hs + cs) ++ ' ' :: (toDecimal hs ++ ' ' :: toDecimal cs))) ++ ['\n'])
      = "event: ".data ++ (toDecimal (hs + cs) ++ ' ' :: (toDecimal hs ++ ' ' :: toDecimal cs)) := by
    have hshape : ("event: ".data
          ++ (toDecimal (hs + cs) ++ ' ' :: (toDecimal hs ++ ' ' :: toDecimal cs))) ++ ['\n']
        = ('e' :: "vent:".data)
          ++ (' ' :: (toDecimal (hs + cs) ++ ' ' :: (toDecimal hs ++ ' ' :: toDecimal cs))) ++ ['\n'] := by
      simp
    rw [hshape, strip_label_line 'e' "vent:".data _ (by decide) (by decide) hvC]
    simp
  rw [hstrip]
  have htake : ("event: ".data
        ++ (toDecimal (hs + cs) ++ ' ' :: (toDecimal hs ++ ' ' :: toDecimal cs))).take 6
      = "event:".data := by
    have hshape : "event: ".data
          ++ (toDecimal (hs + cs) ++ ' ' :: (toDecimal hs ++ ' ' :: toDecimal cs))
        = "event:".data
          ++ (' ' :: (toDecimal (hs + cs) ++ ' ' :: (toDecimal hs ++ ' ' :: toDecimal cs))) := by
      simp
    rw [hshape, show (6 : Nat) = ("event:".data).length from rfl]
    exact List.take_left _ _
  rw [if_neg (by simp [htake])]
  have hdrop : ("event: ".data
        ++ (toDecimal (hs + cs) ++ ' ' :: (toDecimal hs ++ ' ' :: toDecimal cs))).drop 7
      = toDecimal (hs + cs) ++ ' ' :: (toDecimal hs ++ ' ' :: toDecimal cs) := by
    rw [show (7 : Nat) = ("event: ".data).length from rfl]
    exact List.drop_left _ _
  rw [hdrop]
  have hsplit : (toDecimal (hs + cs) ++ ' ' :: (toDecimal hs ++ ' ' :: toDecimal cs)).splitOn ' '
      = [toDecimal (hs + cs), toDecimal hs, toDecimal cs] := by
    have hinter : [' '].intercalate [toDecimal (hs + cs), toDecimal hs, toDecimal cs]
        = toDecimal (hs + cs) ++ ' ' :: (toDecimal hs ++ ' ' :: toDecimal cs) := by
      simp [List.intercalate, List.intersperse]
    rw [← hinter]
    refine List.splitOn_intercalate _ _ ?_ (by simp)
    intro l hl
    rcases List.mem_cons.mp hl with h | h
    · rw [h]; exact not_mem_toDecimal ' ' (by decide) _
    · rcases List.mem_cons.mp h with h | h
      · rw [h]; exact not_mem_toDecimal ' ' (by decide) _
      · rcases List.mem_cons.mp h with h | h
        · rw [h]; exact not_mem_toDecimal ' ' (by decide) _
        · simp at h
  rw [hsplit]
  rw [if_neg (by simp)]
  simp only [List.getD_cons_zero, List.getD_cons_succ]
  rw [pyInt_toDecimal (hs + cs), pyInt_toDecimal hs, pyInt_toDecimal cs]

/-- A value below `10^k` renders in at most `k` digits. -/
theorem toDecimal_length_le : ∀ (k n : Nat), n < 10 ^ k → 0 < k → (toDecimal n).length ≤ k := by
  intro k
  induction k with
  | zero => omega
  | succ k ih =>
    intro n hn _
    by_cases h10 : n < 10
    · rw [toDecimal_of_lt n h10]
      simp
    · have hk : 0 < k := by
        by_contra hk0
        have : k = 0 := by omega
        subst this
        simp [pow_succ] at hn
        omega
      rw [toDecimal_of_ge n (by omega)]
      have hd : n / 10 < 10 ^ k := by
        rw [Nat.div_lt_iff_lt_mul (by omega)]
        calc n < 10 ^ (k + 1) := hn
        _ = 10 ^ k * 10 := by ring
      have := ih (n / 10) hd hk
      simp only [List.length_append, List.length_singleton]
      omega

/-- The padded fractional part always has exactly seven digits. -/
theorem pad7_length (m : Nat) (h : m < 10 ^ 7) : (pad7 m).length = 7 := by
  have := toDecimal_length_le 7 m h (by omega)
  simp only [pad7, List.length_append, List.length_replicate]
  omega

/-- All characters of the padded fractional part are digits. -/
theorem pad7_all_isDig (m : Nat) : ∀ c ∈ pad7 m, isDig c = true := by
  intro c hc
  rcases List.mem_append.mp hc with h | h
  · rw [List.eq_of_mem_replicate h]
    decide
  · exact toDecimal_all_isDig m c h

/-- Leading zeros do not change the numeric value of a digit string. -/
theorem digitsVal_replicate_zero (k : Nat) (l : List Char) :
    digitsVal (List.replicate k '0' ++ l) = digitsVal l := by
  induction k with
  | zero => rfl
  | succ k ih =>
    rw [List.replicate_succ, List.cons_append]
    show List.foldl (fun a c => 10 * a + digToNat c) (10 * 0 + digToNat '0')
        (List.replicate k '0' ++ l) = digitsVal l
    have h0 : 10 * 0 + digToNat '0' = 0 := by decide
    rw [h0]
    exact ih

/-- The rounding division of `'%.7f'` is exact on rationals of the form
`n / 10^7`. -/
theorem scaled7_of_div (n : Nat) : scaled7 ((n : ℚ) / 10 ^ 7) = n := by
  have hden : (0 : Int) < (((n : ℚ) / 10 ^ 7).den : Int) := by
    exact_mod_cast ((n : ℚ) / 10 ^ 7).den_pos
  have hcross : ((n : ℚ) / 10 ^ 7).num * 10 ^ 7 = (n : Int) * (((n : ℚ) / 10 ^ 7).den : Int) := by
    have h1 : ((((n : ℚ) / 10 ^ 7).num : ℚ)) / ((((n : ℚ) / 10 ^ 7).den : ℚ))
        = (n : ℚ) / (10 ^ 7 : ℚ) := Rat.num_div_den _
    have h2 := (div_eq_div_iff (by exact_mod_cast ((n : ℚ) / 10 ^ 7).den_nz) (by norm_num)).mp h1
    exact_mod_cast h2
  unfold scaled7
  have hnum : 2 * ((n : ℚ) / 10 ^ 7).num * 10 ^ 7 + (((n : ℚ) / 10 ^ 7).den : Int)
      = (((n : ℚ) / 10 ^ 7).den : Int) * (2 * n + 1) := by
    rw [mul_assoc, hcross]
    ring
  have hsplit : ((((n : ℚ) / 10 ^ 7).den : Nat) : Int) * (2 * n + 1)
      = ((((n : ℚ) / 10 ^ 7).den : Nat) : Int)
        + 2 * ((((n : ℚ) / 10 ^ 7).den : Nat) : Int) * n := by ring
  have hb : 2 * ((((n : ℚ) / 10 ^ 7).den : Nat) : Int) ≠ 0 := by omega
  have hstep := Int.add_mul_ediv_left ((((n : ℚ) / 10 ^ 7).den : Nat) : Int) ((n : Nat) : Int) hb
  rw [hnum, hsplit, hstep, Int.ediv_eq_zero_of_lt hden.le (by omega)]
  omega

/-- `float` parsing of a rendered `<int part>.<7 digits>` string. -/
theorem pyFloatCore_pad (a b : Nat) (hb : b < 10 ^ 7) :
    pyFloatCore (toDecimal a ++ '.' :: pad7 b)
      = some (mkRat ((a : Int) * 10 ^ 7 + (b : Int)) (10 ^ 7)) := by
  have hdot_mem : '.' ∈ toDecimal a ++ '.' :: pad7 b := by simp
  have hip : (toDecimal a ++ '.' :: pad7 b).takeWhile (fun c => c ≠ '.') = toDecimal a := by
    refine takeWhile_append_not _ _ _ ?_ (by simp)
    intro c hc
    simp only [decide_eq_true_eq]
    exact (isDig_ne c (toDecimal_all_isDig a c hc)).2.2.1
  have hfp : (toDecimal a ++ '.' :: pad7 b).drop ((toDecimal a).length + 1) = pad7 b := by
    have hshape : toDecimal a ++ '.' :: pad7 b = (toDecimal a ++ ['.']) ++ pad7 b := by simp
    have hlen : (toDecimal a).length + 1 = (toDecimal a ++ ['.']).length := by simp
    rw [hshape, hlen]
    exact List.drop_left _ _
  have hdot_fp : '.' ∉ pad7 b := fun hmem =>
    absurd (pad7_all_isDig b '.' hmem) (by decide)
  unfold pyFloatCore
  rw [if_pos hdot_mem]
  simp only []
  rw [hip, hfp, if_neg hdot_fp,
    if_pos ⟨Or.inl (toDecimal_ne_nil a), List.all_eq_true.mpr (toDecimal_all_isDig a),
      List.all_eq_true.mpr (pad7_all_isDig b)⟩,
    digitsVal_toDecimal, pad7_length b hb]
  have hdv : digitsVal (pad7 b) = b := by
    unfold pad7
    rw [digitsVal_replicate_zero, digitsVal_toDecimal]
  rw [hdv]

/-- The shape of `'%.7f'` on an exact multiple of `10^-7`. -/
theorem formatTsNN_div (n : Nat) :
    formatTsNN ((n : ℚ) / 10 ^ 7)
      = toDecimal (n / 10 ^ 7) ++ '.' :: pad7 (n % 10 ^ 7) := by
  unfold formatTsNN
  rw [scaled7_of_div n, Int.toNat_natCast]

/-- `float` inverts `'%.7f'` on exact multiples of `10^-7`. -/
theorem pyFloatCore_formatTsNN (n : Nat) :
    pyFloatCore (formatTsNN ((n : ℚ) / 10 ^ 7)) = some ((n : ℚ) / 10 ^ 7) := by
  rw [formatTsNN_div, pyFloatCore_pad _ _ (Nat.mod_lt _ (by omega))]
  congr 1
  have hNat : n / 10 ^ 7 * 10 ^ 7 + n % 10 ^ 7 = n := by omega
  have harg : ((n / 10 ^ 7 : Nat) : Int) * 10 ^ 7 + ((n % 10 ^ 7 : Nat) : Int) = (n : Int) := by
    exact_mod_cast hNat
  rw [harg, Rat.mkRat_eq_div]
  push_cast
  ring

/-- `float` inverts the full `'%.7f'` rendering after whitespace stripping. -/
theorem pyFloat_space_formatTs (n : Nat) :
    pyFloat (' ' :: formatTs ((n : ℚ) / 10 ^ 7)) = some ((n : ℚ) / 10 ^ 7) := by
  have hF : formatTs ((n : ℚ) / 10 ^ 7)
      = toDecimal (n / 10 ^ 7) ++ '.' :: pad7 (n % 10 ^ 7) := by
    unfold formatTs
    rw [if_neg (not_lt.mpr (by positivity)), formatTsNN_div]
  obtain ⟨c, t, hct, hcd⟩ : ∃ c t, toDecimal (n / 10 ^ 7) = c :: t ∧ isDig c = true := by
    cases h : toDecimal (n / 10 ^ 7) with
    | nil => exact absurd h (toDecimal_ne_nil _)
    | cons c t =>
      exact ⟨c, t, rfl, toDecimal_all_isDig _ c (by rw [h]; exact List.mem_cons_self c t)⟩
  have hstrip : strip (' ' :: formatTs ((n : ℚ) / 10 ^ 7)) = formatTs ((n : ℚ) / 10 ^ 7) := by
    rw [hF]
    unfold strip
    have h1 : stripLeft (' ' :: (toDecimal (n / 10 ^ 7) ++ '.' :: pad7 (n % 10 ^ 7)))
        = toDecimal (n / 10 ^ 7) ++ '.' :: pad7 (n % 10 ^ 7) := by
      unfold stripLeft
      rw [List.dropWhile_cons, if_pos (by decide), hct, List.cons_append, List.dropWhile_cons,
        if_neg (by simp [isDig_not_space c hcd])]
    rw [h1, hct, List.cons_append]
    rw [← List.cons_append, ← hct]
    refine stripRight_eq_self _ ?_
    intro x hx
    rcases List.mem_append.mp hx with h | h
    · exact isDig_not_space x (toDecimal_all_isDig _ x h)
    · rcases List.mem_cons.mp h with h | h
      · rw [h]; decide
      · exact isDig_not_space x (pad7_all_isDig _ x h)
  have htake1 : (formatTs ((n : ℚ) / 10 ^ 7)).take 1 = [c] := by
    rw [hF, hct, List.cons_append]
    rfl
  unfold pyFloat
  rw [hstrip, htake1,
    if_neg (by simp [(isDig_ne c hcd).1]), if_neg (by simp [(isDig_ne c hcd).2.1]),
    hF, ← formatTsNN_div, pyFloatCore_formatTsNN]

set_option maxHeartbeats 2000000 in
/-- Parsing the four header lines written by `_serialize_header`. -/
theorem parseHeaderLines_serialized (vid F vsrc w : List Char) (q : ℚ)
    (hidnl : '\n' ∉ vid) (hidst : stripRight vid = vid)
    (hFq : pyFloat (' ' :: F) = some q) (hFnl : '\n' ∉ F)
    (hFst : stripRight (' ' :: F) = ' ' :: F)
    (hsrcnl : '\n' ∉ vsrc) (hsrcst : stripRight vsrc = vsrc)
    (hwnl : '\n' ∉ w) (hwst : stripRight w = w) :
    parseHeaderLines
      ("id:".data ++ vid ++ '\n'
        :: ("timestamp: ".data ++ F ++ '\n'
        :: ("source:".data ++ vsrc ++ '\n'
        :: ("tags:".data ++ w ++ ['\n'])))) ⟨none, none, none, none⟩
      = .ok ⟨some vid, some q, some vsrc, some (w.splitOn ',')⟩ := by
  have hlen3 : ("tags:".data ++ w ++ ['\n']).length = w.length + 6 := by
    simp
  have hlen2 : ("source:".data ++ vsrc ++ '\n'
      :: ("tags:".data ++ w ++ ['\n'])).length = vsrc.length + w.length + 14 := by
    simp
    omega
  have hlen1 : ("timestamp: ".data ++ F ++ '\n'
      :: ("source:".data ++ vsrc ++ '\n'
      :: ("tags:".data ++ w ++ ['\n']))).length = F.length + vsrc.length + w.length + 26 := by
    simp
    omega
  have hlen0 : ("id:".data ++ vid ++ '\n'
      :: ("timestamp: ".data ++ F ++ '\n'
      :: ("source:".data ++ vsrc ++ '\n'
      :: ("tags:".data ++ w ++ ['\n'])))).length
      = vid.length + F.length + vsrc.length + w.length + 30 := by
    simp
    omega
  have hstep1 : ∀ fuel : Nat,
      parseHeaderLinesAux (fuel + 1)
        ("id:".data ++ vid ++ '\n'
          :: ("timestamp: ".data ++ F ++ '\n'
          :: ("source:".data ++ vsrc ++ '\n'
          :: ("tags:".data ++ w ++ ['\n'])))) ⟨none, none, none, none⟩
        = parseHeaderLinesAux fuel
            ("timestamp: ".data ++ F ++ '\n'
              :: ("source:".data ++ vsrc ++ '\n'
              :: ("tags:".data ++ w ++ ['\n'])))
            ⟨some vid, none, none, none⟩ := by
    intro fuel
    have hsh : "id:".data ++ vid ++ '\n'
          :: ("timestamp: ".data ++ F ++ '\n'
          :: ("source:".data ++ vsrc ++ '\n'
          :: ("tags:".data ++ w ++ ['\n'])))
        = (('i' :: ['d']) ++ [':']) ++ vid ++ '\n'
          :: ("timestamp: ".data ++ F ++ '\n'
          :: ("source:".data ++ vsrc ++ '\n'
          :: ("tags:".data ++ w ++ ['\n']))) := rfl
    rw [hsh, parseHeaderLinesAux_line fuel 'i' ['d'] vid _ _ (by decide) (by decide)
      (fun hmem => by
        rcases List.mem_append.mp hmem with h | h
        · exact absurd h (by decide)
        · exact hidnl h)
      hidst]
    rw [if_pos rfl]
  have hstep2 : ∀ fuel : Nat,
      parseHeaderLinesAux (fuel + 1)
        ("timestamp: ".data ++ F ++ '\n'
          :: ("source:".data ++ vsrc ++ '\n'
          :: ("tags:".data ++ w ++ ['\n'])))
        ⟨some vid, none, none, none⟩
        = parseHeaderLinesAux fuel
            ("source:".data ++ vsrc ++ '\n'
              :: ("tags:".data ++ w ++ ['\n']))
            ⟨some vid, some q, none, none⟩ := by
    intro fuel
    have hsh : "timestamp: ".data ++ F ++ '\n'
          :: ("source:".data ++ vsrc ++ '\n'
          :: ("tags:".data ++ w ++ ['\n']))
        = (('t' :: "imestamp".data) ++ [':']) ++ (' ' :: F) ++ '\n'
          :: ("source:".data ++ vsrc ++ '\n'
          :: ("tags:".data ++ w ++ ['\n'])) := rfl
    rw [hsh, parseHeaderLinesAux_line fuel 't' "imestamp".data (' ' :: F) _ _ (by decide)
      (by decide)
      (fun hmem => by
        rcases List.mem_append.mp hmem with h | h
        · exact absurd h (by decide)
        · rcases List.mem_cons.mp h with h | h
          · exact absurd h (by decide)
          · exact hFnl h)
      hFst]
    rw [if_neg (by decide), if_pos rfl, hFq]
  have hstep3 : ∀ fuel : Nat,
      parseHeaderLinesAux (fuel + 1)
        ("source:".data ++ vsrc ++ '\n'
          :: ("tags:".data ++ w ++ ['\n']))
        ⟨some vid, some q, none, none⟩
        = parseHeaderLinesAux fuel
            ("tags:".data ++ w ++ ['\n'])
            ⟨some vid, some q, some vsrc, none⟩ := by
    intro fuel
    have hsh : "source:".data ++ vsrc ++ '\n'
          :: ("tags:".data ++ w ++ ['\n'])
        = (('s' :: "ource".data) ++ [':']) ++ vsrc ++ '\n'
          :: ("tags:".data ++ w ++ ['\n']) := rfl
    rw [hsh, parseHeaderLinesAux_line fuel 's' "ource".data vsrc _ _ (by decide) (by decide)
      (fun hmem => by
        rcases List.mem_append.mp hmem with h | h
        · exact absurd h (by decide)
        · exact hsrcnl h)
      hsrcst]
    rw [if_neg (by decide), if_neg (by decide), if_pos rfl]
  have hstep4 : ∀ fuel : Nat,
      parseHeaderLinesAux (fuel + 1)
        ("tags:".data ++ w ++ ['\n'])
        ⟨some vid, some q, some vsrc, none⟩
        = parseHeaderLinesAux fuel []
            ⟨some vid, some q, some vsrc, some (w.splitOn ',')⟩ := by
    intro fuel
    have hsh : "tags:".data ++ w ++ ['\n']
        = (('t' :: "ags".data) ++ [':']) ++ w ++ '\n' :: [] := rfl
    rw [hsh, parseHeaderLinesAux_line fuel 't' "ags".data w _ _ (by decide) (by decide)
      (fun hmem => by
        rcases List.mem_append.mp hmem with h | h
        · exact absurd h (by decide)
        · exact hwnl h)
      hwst]
    rw [if_neg (by decide), if_neg (by decide), if_neg (by decide), if_pos rfl]
  unfold parseHeaderLines
  rw [hstep1]
  rw [parseHeaderLinesAux_irrel _
    (("timestamp: ".data ++ F ++ '\n'
      :: ("source:".data ++ vsrc ++ '\n'
      :: ("tags:".data ++ w ++ ['\n']))).length + 1) _ _
    (by rw [hlen1]; rw [hlen0]; omega) (by omega)]
  rw [hstep2]
  rw [parseHeaderLinesAux_irrel _
    (("source:".data ++ vsrc ++ '\n'
      :: ("tags:".data ++ w ++ ['\n'])).length + 1) _ _
    (by rw [hlen2]; rw [hlen1]; omega) (by omega)]
  rw [hstep3]
  rw [parseHeaderLinesAux_irrel _
    (("tags:".data ++ w ++ ['\n']).length + 1) _ _
    (by rw [hlen3]; rw [hlen2]; omega) (by omega)]
  rw [hstep4]
  rw [parseHeaderLinesAux_irrel _ 1 _ _ (by rw [hlen3]; simp) (by simp)]
  rfl

/-- Characters of a comma-joined tag list come from the tags or are commas. -/
theorem mem_intercalate_comma : ∀ (tags : List (List Char)) (c : Char),
    c ∈ List.intercalate [','] tags → c = ',' ∨ ∃ t ∈ tags, c ∈ t := by
  intro tags
  induction tags with
  | nil => intro c hc; simp [List.intercalate] at hc
  | cons t rest ih =>
    intro c hc
    cases rest with
    | nil =>
      simp [List.intercalate] at hc
      exact Or.inr ⟨t, by simp, hc⟩
    | cons u rs =>
      have hshape : List.intercalate [','] (t :: u :: rs)
          = t ++ ',' :: List.intercalate [','] (u :: rs) := by
        simp [List.intercalate, List.intersperse]
      rw [hshape] at hc
      rcases List.mem_append.mp hc with h | h
      · exact Or.inr ⟨t, by simp, h⟩
      · rcases List.mem_cons.mp h with h | h
        · exact Or.inl h
        · rcases ih c h with h | ⟨t', ht', hct'⟩
          · exact Or.inl h
          · exact Or.inr ⟨t', List.mem_cons_of_mem t ht', hct'⟩

/-- All characters of `'%.7f'` output are digits or the decimal point. -/
theorem formatTs_div_nonspace (n : Nat) :
    ∀ c ∈ formatTs ((n : ℚ) / 10 ^ 7), isSpaceC c = false := by
  have hF : formatTs ((n : ℚ) / 10 ^ 7)
      = toDecimal (n / 10 ^ 7) ++ '.' :: pad7 (n % 10 ^ 7) := by
    unfold formatTs
    rw [if_neg (not_lt.mpr (by positivity)), formatTsNN_div]
  rw [hF]
  intro c hc
  rcases List.mem_append.mp hc with h | h
  · exact isDig_not_space c (toDecimal_all_isDig _ c h)
  · rcases List.mem_cons.mp h with h | h
    · rw [h]; decide
    · exact isDig_not_space c (pad7_all_isDig _ c h)

/-- `'%.7f'` output is never empty. -/
theorem formatTs_div_ne_nil (n : Nat) : formatTs ((n : ℚ) / 10 ^ 7) ≠ [] := by
  have hF : formatTs ((n : ℚ) / 10 ^ 7)
      = toDecimal (n / 10 ^ 7) ++ '.' :: pad7 (n % 10 ^ 7) := by
    unfold formatTs
    rw [if_neg (not_lt.mpr (by positivity)), formatTsNN_div]
  rw [hF]
  simp

/-- `parse_header` on a stream beginning with exactly the declared bytes. -/
theorem parse_header_exact (hdr rest : List Char) :
    parse_header ((strBytes hdr : Nat) : Int) (hdr ++ rest)
      = match parseHeaderLines hdr ⟨none, none, none, none⟩ with
        | .ok h => .ok (h, rest)
        | .error e => .error e := by
  unfold parse_header readN
  rw [if_neg (by omega), Int.toNat_natCast, readUpTo_exact]
  simp only []
  rw [if_neg (by simp)]

set_option maxHeartbeats 2000000 in
/-- Claim C1 (amended): serialize-then-parse is the identity on events whose
`id` and `source` are present, newline-free and without trailing whitespace,
whose tag list is nonempty with comma-free whitespace-free tags, whose content
is 1-byte (ASCII) text, and whose timestamp is a positive multiple of `10^-7`
(the resolution of the `'%.7f'` rendering); the parser is left exactly at the
end of the frame. -/
theorem C1_serialize_parse_roundtrip (e : Event) (now : ℚ) (vid vsrc : List Char) (n : Nat)
    (hid : e.id = some vid) (hsrc : e.source = some vsrc)
    (hidnl : '\n' ∉ vid) (hidst : stripRight vid = vid)
    (hsrcnl : '\n' ∉ vsrc) (hsrcst : stripRight vsrc = vsrc)
    (htne : e.tags ≠ [])
    (htags : ∀ t ∈ e.tags, ',' ∉ t ∧ ∀ c ∈ t, isSpaceC c = false)
    (hcnt : ∀ c ∈ e.content, c.utf8Size = 1)
    (hn : 0 < n) (hts : e.timestamp = (n : ℚ) / 10 ^ 7) :
    parse_event now (serialize e) = .ok (e, []) := by
  have hwns : ∀ c ∈ List.intercalate [','] e.tags, isSpaceC c = false := by
    intro c hc
    rcases mem_intercalate_comma e.tags c hc with h | ⟨t, ht, hct⟩
    · rw [h]; decide
    · exact (htags t ht).2 c hct
  have hwnl : '\n' ∉ List.intercalate [','] e.tags :=
    fun h => absurd (hwns '\n' h) (by decide)
  have hwst : stripRight (List.intercalate [','] e.tags) = List.intercalate [','] e.tags :=
    stripRight_eq_self _ hwns
  have hsplitw : (List.intercalate [','] e.tags).splitOn ',' = e.tags :=
    List.splitOn_intercalate e.tags ',' (fun t ht => (htags t ht).1) htne
  have hFq : pyFloat (' ' :: formatTs e.timestamp) = some e.timestamp := by
    rw [hts]; exact pyFloat_space_formatTs n
  have hFnl : '\n' ∉ formatTs e.timestamp := by
    rw [hts]
    exact fun h => absurd (formatTs_div_nonspace n '\n' h) (by decide)
  have hFst : stripRight (' ' :: formatTs e.timestamp) = ' ' :: formatTs e.timestamp := by
    rw [hts]
    have hshape : (' ' :: formatTs ((n : ℚ) / 10 ^ 7))
        = [' '] ++ formatTs ((n : ℚ) / 10 ^ 7) := rfl
    rw [hshape]
    exact stripRight_append_fix _ _
      (stripRight_eq_self _ (formatTs_div_nonspace n)) (formatTs_div_ne_nil n)
  have hts0 : e.timestamp ≠ 0 := by
    rw [hts]
    have hpos : (0 : ℚ) < (n : ℚ) / 10 ^ 7 := by
      apply div_pos
      · exact_mod_cast hn
      · norm_num
    exact ne_of_gt hpos
  have hhdr : parseHeaderLines (_serialize_header e) ⟨none, none, none, none⟩
      = .ok ⟨some vid, some e.timestamp, some vsrc, some e.tags⟩ := by
    unfold _serialize_header
    rw [hid, hsrc]
    simp only [pyStr]
    rw [parseHeaderLines_serialized vid (formatTs e.timestamp) vsrc
      (List.intercalate [','] e.tags) e.timestamp hidnl hidst hFq hFnl hFst
      hsrcnl hsrcst hwnl hwst, hsplitw]
  have he : (⟨some vid, some vsrc, e.timestamp, e.tags, e.content⟩ : Event) = e := by
    obtain ⟨eid, esrc, ets, etags, econt⟩ := e
    simp only at hid hsrc
    rw [hid, hsrc]
  unfold parse_event serialize
  simp only []
  rw [show (['e', 'v', 'e', 'n', 't', ':', ' '] : List Char) = "event: ".data from rfl]
  rw [parse_preamble_serialized (strBytes (_serialize_header e)) (strBytes e.content)
    (_serialize_header e ++ e.content ++ ['\n'])]
  simp only []
  rw [List.append_assoc (_serialize_header e) e.content ['\n']]
  rw [parse_header_exact (_serialize_header e) (e.content ++ ['\n']), hhdr]
  simp only []
  unfold readN
  rw [if_neg (by omega), Int.toNat_natCast, readUpTo_exact]
  simp only []
  rw [if_neg (by rw [strBytes_eq_length e.content hcnt]; simp)]
  unfold eventInit
  simp only [Option.getD]
  rw [if_neg hts0, he]
  rfl

/-- Claim C1 counterexample: an event with an empty tag list does not
round-trip — the serialized `tags:` line is empty, and splitting the empty
string on `','` yields one empty tag, so the parsed event has `tags = ['']`,
not `[]`. -/
theorem C1_counterexample :
    parse_event 1 (serialize ⟨some ['a'], some ['s'], 5, [], ['c']⟩)
      = .ok (⟨some ['a'], some ['s'], 5, [[]], ['c']⟩, []) ∧
    ((⟨some ['a'], some ['s'], 5, [[]], ['c']⟩ : Event)
      ≠ ⟨some ['a'], some ['s'], 5, [], ['c']⟩) :=
  ⟨by decide, by decide⟩

/-- Witness for `C1_serialize_parse_roundtrip`: a concrete event satisfying
every hypothesis round-trips. -/
theorem C1_witness :
    0 < 15000000 ∧
    parse_event 1 (serialize ⟨some ['a'], some ['s'], (15000000 : ℚ) / 10 ^ 7, [['t']], ['c']⟩)
      = .ok (⟨some ['a'], some ['s'], (15000000 : ℚ) / 10 ^ 7, [['t']], ['c']⟩, []) :=
  ⟨by decide,
   C1_serialize_parse_roundtrip _ 1 ['a'] ['s'] 15000000 rfl rfl (by decide) (by decide)
     (by decide) (by decide) (by decide) (by decide) (by decide) (by decide) rfl⟩
